import Mathlib

/-!
Shallow embedding of the query ingestion and term-storage subsystem of
`src/rdb_protocol/query.cc` (namespace `ql`), together with theorems that
check the specification's claims against that code.

Modelling conventions:
* rapidjson values are the inductive `JValue`; the datum bridge (`to_datum`,
  an external collaborator per the spec) maps JSON structurally onto `Datum`.
* `uint64_t` query ids are `Nat` (the increment-only counter never wraps in
  any reachable scenario, so overflow is immaterial).
* The intrusive doubly linked list of outstanding `query_id_t` handles is the
  list of their values in arrival order; `intrusive_list_t::remove` removes
  exactly the given node, which under the allocator's strict sortedness is
  erasure of the (unique) occurrence of its value.
* `raw_term_t` nodes live in an append-only arena (`term_storage_t.terms`);
  raw pointers between nodes are arena indices, and `nullptr` is `none`.
* `debugf` calls, `rassert`/`guarantee` assertions and thread-residency
  checks have no observable effect on the modelled state; release-build
  semantics (assertions compiled out) are used where execution continues.
-/

namespace ql

/-- A parsed rapidjson document value. Object members keep document order
(rapidjson stores members as an array and `FindMember` scans it). -/
inductive JValue where
  | null : JValue
  | bool (b : Bool) : JValue
  | num (n : Int) : JValue
  | str (s : String) : JValue
  | arr (elems : List JValue) : JValue
  | obj (members : List (String × JValue)) : JValue
deriving Repr

/-- The evaluator's immutable value type `datum_t` (an external collaborator;
the spec calls it an opaque immutable value with a few inspection operations).
Only the structure needed by this subsystem is modelled. -/
inductive Datum where
  | null : Datum
  | bool (b : Bool) : Datum
  | num (n : Int) : Datum
  | str (s : String) : Datum
  | arr (elems : List Datum) : Datum
  | obj (members : List (String × Datum)) : Datum
deriving Repr

instance : Inhabited Datum := ⟨Datum.null⟩

mutual

/-- The datum bridge `to_datum(rapidjson::Value, ...)`: a read-only structural
adapter from JSON values to datums (component C1 of the spec, external to the
visible slice). JSON booleans become `R_BOOL` datums and nothing else does. -/
def to_datum : JValue → Datum
  | .null => .null
  | .bool b => .bool b
  | .num n => .num n
  | .str s => .str s
  | .arr xs => .arr (to_datum_list xs)
  | .obj ms => .obj (to_datum_members ms)

/-- Elementwise `to_datum` over a JSON array's elements. -/
def to_datum_list : List JValue → List Datum
  | [] => []
  | x :: xs => to_datum x :: to_datum_list xs

/-- Memberwise `to_datum` over a JSON object's members. -/
def to_datum_members : List (String × JValue) → List (String × Datum)
  | [] => []
  | (k, v) :: ms => (k, to_datum v) :: to_datum_members ms

end

/-! ### Query-id allocator (`query_params_t::query_id_t`, `query_cache_t`) -/

/-- The per-session allocator state inside `query_cache_t`: the counter
`next_query_id`, the intrusive list `outstanding_query_ids` (values in
arrival order), and the watermark `oldest_outstanding_query_id`. -/
structure query_cache_t where
  next_query_id : Nat
  outstanding_query_ids : List Nat
  oldest_outstanding_query_id : Nat
deriving Repr, DecidableEq

/-- `query_id_t::query_id_t(query_cache_t *_parent)`: takes the current
`next_query_id` as the new value, increments the counter, and appends the
handle at the tail of the outstanding list. -/
def query_id_acquire (c : query_cache_t) : Nat × query_cache_t :=
  (c.next_query_id,
   { next_query_id := c.next_query_id + 1
     outstanding_query_ids := c.outstanding_query_ids ++ [c.next_query_id]
     oldest_outstanding_query_id := c.oldest_outstanding_query_id })

/-- `query_id_t::~query_id_t()` for a handle of value `v`: when the handle is
in the list it is removed, and when its value equals the watermark the
watermark advances to the new head's value, or to `next_query_id` when the
list became empty. A handle that is not in a list (moved-from or orphaned)
is a no-op. -/
def query_id_release (c : query_cache_t) (v : Nat) : query_cache_t :=
  if v ∈ c.outstanding_query_ids then
    let remaining := c.outstanding_query_ids.erase v
    { next_query_id := c.next_query_id
      outstanding_query_ids := remaining
      oldest_outstanding_query_id :=
        if v = c.oldest_outstanding_query_id then
          match remaining with
          | [] => c.next_query_id
          | h :: _ => h
        else c.oldest_outstanding_query_id }
  else c

/-- One allocator operation: construction or destruction of a `query_id_t`. -/
inductive cache_op where
  | acquire : cache_op
  | release (v : Nat) : cache_op
deriving Repr, DecidableEq

/-- Apply one allocator operation. -/
def cache_step (c : query_cache_t) : cache_op → query_cache_t
  | .acquire => (query_id_acquire c).2
  | .release v => query_id_release c v

/-- Run a sequence of allocator operations. -/
def cache_run (c : query_cache_t) : List cache_op → query_cache_t
  | [] => c
  | op :: ops => cache_run (cache_step c op) ops

/-- A fresh session's allocator state: empty outstanding list, and the
watermark equal to the id counter (spec invariant 4 fixes the initial
watermark; `query_cache_t`'s constructor is outside the visible slice). -/
def cache_init (n0 : Nat) : query_cache_t :=
  { next_query_id := n0, outstanding_query_ids := [], oldest_outstanding_query_id := n0 }

/-- The allocator invariant: the outstanding list is strictly increasing,
every outstanding id is below `next_query_id`, and the watermark equals the
head of the list (or `next_query_id` when the list is empty). -/
def cache_inv (c : query_cache_t) : Prop :=
  c.outstanding_query_ids.Pairwise (· < ·) ∧
  (∀ v ∈ c.outstanding_query_ids, v < c.next_query_id) ∧
  c.oldest_outstanding_query_id = c.outstanding_query_ids.head?.getD c.next_query_id

instance (c : query_cache_t) : Decidable (cache_inv c) := by
  unfold cache_inv; infer_instance

theorem cache_inv_acquire {c : query_cache_t} (h : cache_inv c) :
    cache_inv (query_id_acquire c).2 := by
  obtain ⟨hpw, hlt, hhd⟩ := h
  refine ⟨?_, ?_, ?_⟩
  · simpa [query_id_acquire, List.pairwise_append] using ⟨hpw, fun v hv => hlt v hv⟩
  · intro v hv
    simp only [query_id_acquire, List.mem_append, List.mem_singleton] at hv
    rcases hv with hv | rfl
    · exact Nat.lt_succ_of_lt (hlt v hv)
    · exact Nat.lt_succ_self _
  · cases hl : c.outstanding_query_ids with
    | nil => simp [query_id_acquire, hl, hl ▸ hhd]
    | cons a l => simp [query_id_acquire, hl, hl ▸ hhd]

theorem cache_inv_release {c : query_cache_t} (h : cache_inv c) (v : Nat) :
    cache_inv (query_id_release c v) := by
  obtain ⟨hpw, hlt, hhd⟩ := h
  unfold query_id_release
  by_cases hmem : v ∈ c.outstanding_query_ids
  · simp only [hmem, if_true]
    have hsub : (c.outstanding_query_ids.erase v).Sublist c.outstanding_query_ids :=
      List.erase_sublist v c.outstanding_query_ids
    refine ⟨hpw.sublist hsub, fun w hw => hlt w (hsub.mem hw), ?_⟩
    cases hl : c.outstanding_query_ids with
    | nil => simp [hl] at hmem
    | cons a l =>
      rw [hl] at hhd
      have hhda : c.oldest_outstanding_query_id = a := by simpa using hhd
      dsimp only
      by_cases hva : v = a
      · subst hva
        have herase : (v :: l).erase v = l := by simp [List.erase_cons]
        rw [herase, if_pos hhda.symm]
        cases l with
        | nil => simp
        | cons b t => simp
      · have hne : ¬(v = c.oldest_outstanding_query_id) := by
          rw [hhda]; exact hva
        have herase : (a :: l).erase v = a :: l.erase v := by
          simp [List.erase_cons, Ne.symm hva]
        rw [herase, if_neg hne]
        simp [hhda]
  · simp only [hmem, if_false]
    exact ⟨hpw, hlt, hhd⟩

theorem cache_inv_step {c : query_cache_t} (h : cache_inv c) (op : cache_op) :
    cache_inv (cache_step c op) := by
  cases op with
  | acquire => exact cache_inv_acquire h
  | release v => exact cache_inv_release h v

theorem cache_inv_run {c : query_cache_t} (h : cache_inv c) (ops : List cache_op) :
    cache_inv (cache_run c ops) := by
  induction ops generalizing c with
  | nil => exact h
  | cons op ops ih => exact ih (cache_inv_step h op)

theorem cache_inv_init (n0 : Nat) : cache_inv (cache_init n0) := by
  refine ⟨by simp [cache_init], by simp [cache_init], by simp [cache_init]⟩

/-- C1: after any sequence of acquire (`query_id_t` construction) and release
(`query_id_t` destruction) operations, the watermark
`oldest_outstanding_query_id` equals the value at the head of the outstanding
list when it is nonempty and equals `next_query_id` when it is empty; and
releasing the id equal to the watermark advances the watermark to the new
head's value, or to `next_query_id` when the list becomes empty. -/
theorem claim_C1 (n0 : Nat) (ops : List cache_op) :
    (∀ h t, (cache_run (cache_init n0) ops).outstanding_query_ids = h :: t →
       (cache_run (cache_init n0) ops).oldest_outstanding_query_id = h) ∧
    ((cache_run (cache_init n0) ops).outstanding_query_ids = [] →
       (cache_run (cache_init n0) ops).oldest_outstanding_query_id =
         (cache_run (cache_init n0) ops).next_query_id) ∧
    (∀ v, v = (cache_run (cache_init n0) ops).oldest_outstanding_query_id →
       v ∈ (cache_run (cache_init n0) ops).outstanding_query_ids →
       (query_id_release (cache_run (cache_init n0) ops) v).oldest_outstanding_query_id =
         match (cache_run (cache_init n0) ops).outstanding_query_ids.erase v with
         | [] => (cache_run (cache_init n0) ops).next_query_id
         | h :: _ => h) := by
  have hinv := cache_inv_run (cache_inv_init n0) ops
  obtain ⟨-, -, hhd⟩ := hinv
  refine ⟨?_, ?_, ?_⟩
  · intro h t hl; rw [hhd, hl]; rfl
  · intro hl; rw [hhd, hl]; rfl
  · intro v hv hmem
    subst hv
    unfold query_id_release
    rw [if_pos hmem]
    simp

theorem claim_C1_witness :
    (cache_run (cache_init 0) [cache_op.acquire, cache_op.acquire]).oldest_outstanding_query_id
      = 0 :=
  (claim_C1 0 [cache_op.acquire, cache_op.acquire]).1 0 [1] (by decide)

theorem cache_next_monotone (c : query_cache_t) (ops : List cache_op) :
    c.next_query_id ≤ (cache_run c ops).next_query_id := by
  induction ops generalizing c with
  | nil => exact Nat.le_refl _
  | cons op ops ih =>
    refine Nat.le_trans ?_ (ih (cache_step c op))
    cases op with
    | acquire => exact Nat.le_succ _
    | release v =>
      simp only [cache_step, query_id_release]
      split <;> simp

/-- C4: an id produced by acquire is strictly greater than the value at the
tail of the outstanding list and at least the current watermark, and any id
acquired later in the same session (after any further operations) is strictly
greater. -/
theorem claim_C4 (c : query_cache_t) (hinv : cache_inv c) :
    (∀ t, c.outstanding_query_ids.getLast? = some t → t < (query_id_acquire c).1) ∧
    c.oldest_outstanding_query_id ≤ (query_id_acquire c).1 ∧
    (∀ ops, (query_id_acquire c).1 <
       (query_id_acquire (cache_run (query_id_acquire c).2 ops)).1) := by
  obtain ⟨hpw, hlt, hhd⟩ := hinv
  refine ⟨?_, ?_, ?_⟩
  · intro t ht
    have hne : c.outstanding_query_ids ≠ [] := by
      intro h; rw [h] at ht; simp at ht
    have hmem : t ∈ c.outstanding_query_ids := by
      rw [List.getLast?_eq_getLast_of_ne_nil hne, Option.some_inj] at ht
      rw [← ht]
      exact List.getLast_mem hne
    exact hlt t hmem
  · cases hl : c.outstanding_query_ids with
    | nil => simp only [query_id_acquire]; rw [hhd, hl]; simp
    | cons a l =>
      have : c.oldest_outstanding_query_id = a := by simpa [hl] using hhd
      rw [this]
      exact Nat.le_of_lt (hlt a (by simp [hl]))
  · intro ops
    have h2 := cache_next_monotone (query_id_acquire c).2 ops
    simp only [query_id_acquire] at h2 ⊢
    omega

theorem claim_C4_witness :
    cache_inv (query_cache_t.mk 2 [0, 1] 0) ∧
    (query_id_acquire (query_cache_t.mk 2 [0, 1] 0)).1 <
      (query_id_acquire
        (cache_run (query_id_acquire (query_cache_t.mk 2 [0, 1] 0)).2 [cache_op.release 0])).1 :=
  ⟨by decide,
   (claim_C4 (query_cache_t.mk 2 [0, 1] 0) (by decide)).2.2 [cache_op.release 0]⟩

/-! ### Term-type tags (`Term::TermType` values from ql2.proto used here) -/

namespace Term

/-- `Term::DATUM` -/
def DATUM : Int := 1

/-- `Term::MAKE_ARRAY` -/
def MAKE_ARRAY : Int := 2

/-- `Term::MAKE_OBJ` -/
def MAKE_OBJ : Int := 3

/-- `Term::DB` -/
def DB : Int := 14

/-- `Term::FUNC` -/
def FUNC : Int := 69

/-- `Term::NOW` -/
def NOW : Int := 103

end Term

/-- `raw_term_t::REFERENCE = static_cast<Term::TermType>(-1)`. -/
def REFERENCE : Int := -1

/-! ### Query envelope parser (`query_params_t`) -/

/-- `query_params_t::static_optarg_as_bool(key, default_value)`: looks the key
up among the global optargs (rapidjson `FindMember` returns the first member
with that name), accepts only a 2-element array whose element 0 is the number
`DATUM` and whose element 1 converts to a boolean datum, and returns the
default in every other case. It never raises. -/
def static_optarg_as_bool (global_optargs_json : List (String × JValue))
    (key : String) (default_value : Bool) : Bool :=
  match global_optargs_json.find? (fun m => m.1 = key) with
  | none => default_value
  | some m =>
    match m.2 with
    | .arr [t0, v1] =>
      match t0 with
      | .num n =>
        if n = Term.DATUM then
          match to_datum v1 with
          | .bool b => b
          | _ => default_value
        else default_value
      | _ => default_value
    | _ => default_value

/-- C9: `static_optarg_as_bool` returns the boolean carried by the optarg
exactly when the member found under the key has the shape `[DATUM, <bool>]`
(so that `to_datum` of element 1 is a boolean datum), and returns the supplied
default for every other shape: key absent, not an array, wrong length,
non-number tag, non-`DATUM` tag, or non-boolean payload. Being a total Lean
function, it raises no error on any input. -/
theorem claim_C9 (global_optargs_json : List (String × JValue))
    (key : String) (default_value : Bool) :
    (∃ k b, global_optargs_json.find? (fun m => m.1 = key) =
        some (k, .arr [.num Term.DATUM, .bool b]) ∧
      static_optarg_as_bool global_optargs_json key default_value = b) ∨
    ((¬ ∃ k b, global_optargs_json.find? (fun m => m.1 = key) =
        some (k, .arr [.num Term.DATUM, .bool b])) ∧
      static_optarg_as_bool global_optargs_json key default_value = default_value) := by
  unfold static_optarg_as_bool
  cases hf : global_optargs_json.find? (fun m => m.1 = key) with
  | none => exact Or.inr ⟨by simp, rfl⟩
  | some m =>
    obtain ⟨k, v⟩ := m
    match v with
    | .null | .bool _ | .num _ | .str _ | .obj _ =>
      exact Or.inr ⟨by simp, rfl⟩
    | .arr [] | .arr [_] =>
      exact Or.inr ⟨by simp, rfl⟩
    | .arr (t0 :: v1 :: x :: rest) =>
      exact Or.inr ⟨by simp, rfl⟩
    | .arr [t0, v1] =>
      match t0 with
      | .null | .bool _ | .str _ | .arr _ | .obj _ =>
        exact Or.inr ⟨by simp, rfl⟩
      | .num n =>
        by_cases hn : n = Term.DATUM
        · subst hn
          match v1 with
          | .bool b =>
            exact Or.inl ⟨k, b, rfl, by simp [to_datum]⟩
          | .null =>
            exact Or.inr ⟨by simp, by simp [to_datum]⟩
          | .num x =>
            exact Or.inr ⟨by simp, by simp [to_datum]⟩
          | .str x =>
            exact Or.inr ⟨by simp, by simp [to_datum]⟩
          | .arr x =>
            exact Or.inr ⟨by simp, by simp [to_datum]⟩
          | .obj x =>
            exact Or.inr ⟨by simp, by simp [to_datum]⟩
        · exact Or.inr ⟨by simp [hn], by simp [hn]⟩

/-- `query_params_t::query_params_t(token, query_cache, original_data,
query_json)`, restricted to its observable effects on the query-id allocator
and the extracted `noreply` flag.  The member-initializer list acquires a
query id (`id(query_cache)`); if any validation in the body throws
`bt_exc_t(Response::CLIENT_ERROR, ...)`, stack unwinding destroys the id,
releasing it; when the query is not `noreply` the id is moved into a local
`destroyer` and released before the constructor returns.  The token, raw
buffer and `profile` flag do not affect the allocator and are omitted. -/
def query_params_construct (query_json : JValue) (query_cache : query_cache_t) :
    Except String Bool × query_cache_t :=
  let v := (query_id_acquire query_cache).1
  let c1 := (query_id_acquire query_cache).2
  match query_json with
  | .arr [] =>
    (.error "Expected 0 to 3 elements in the top-level query", query_id_release c1 v)
  | .arr (e0 :: rest) =>
    if rest.length > 2 then
      (.error "Expected 0 to 3 elements in the top-level query", query_id_release c1 v)
    else
      match e0 with
      | .num _ =>
        match rest with
        | [] => (.ok false, query_id_release c1 v)
        | [_] => (.ok false, query_id_release c1 v)
        | [_, g] =>
          match g with
          | .obj members =>
            let noreply := static_optarg_as_bool members "noreply" false
            if noreply then (.ok true, c1)
            else (.ok false, query_id_release c1 v)
          | _ =>
            (.error "Expected global optargs as an object", query_id_release c1 v)
        | _ :: _ :: _ :: _ =>
          (.error "Expected 0 to 3 elements in the top-level query", query_id_release c1 v)
      | _ =>
        (.error "Expected a query type as a number", query_id_release c1 v)
  | _ =>
    (.error "Expected a query to be an array", query_id_release c1 v)

theorem release_of_append {c : query_cache_t} (hinv : cache_inv c) :
    (query_id_release (query_id_acquire c).2 (query_id_acquire c).1).outstanding_query_ids
      = c.outstanding_query_ids := by
  obtain ⟨-, hlt, -⟩ := hinv
  have hnotmem : c.next_query_id ∉ c.outstanding_query_ids := by
    intro hmem
    exact absurd (hlt _ hmem) (Nat.lt_irrefl _)
  simp only [query_id_acquire, query_id_release]
  rw [if_pos (by simp)]
  simp only []
  rw [List.erase_append_right _ hnotmem]
  simp

/-- C7: constructing a `query_params_t` appends exactly one retained entry to
the allocator's outstanding list precisely when construction succeeds with
`noreply = true`; in every other outcome (successful non-noreply construction
or a `CLIENT_ERROR` at any validation step) the id acquired by the
initializer list is released before the constructor exits and the outstanding
list is left exactly as it was. -/
theorem claim_C7 (query_json : JValue) (query_cache : query_cache_t)
    (hinv : cache_inv query_cache) :
    ((query_params_construct query_json query_cache).1 = .ok true ↔
      (query_params_construct query_json query_cache).2.outstanding_query_ids =
        query_cache.outstanding_query_ids ++ [query_cache.next_query_id]) ∧
    ((query_params_construct query_json query_cache).1 ≠ .ok true →
      (query_params_construct query_json query_cache).2.outstanding_query_ids =
        query_cache.outstanding_query_ids) := by
  have hrel := release_of_append hinv
  have hne : query_cache.outstanding_query_ids ≠
      query_cache.outstanding_query_ids ++ [query_cache.next_query_id] := by
    intro h
    have := congrArg List.length h
    simp at this
  have hside : ∀ (r : Except String Bool), r ≠ .ok true →
      ((r = Except.ok true ↔
        (query_id_release (query_id_acquire query_cache).2
            (query_id_acquire query_cache).1).outstanding_query_ids =
          query_cache.outstanding_query_ids ++ [query_cache.next_query_id]) ∧
       (r ≠ Except.ok true →
        (query_id_release (query_id_acquire query_cache).2
            (query_id_acquire query_cache).1).outstanding_query_ids =
          query_cache.outstanding_query_ids)) := by
    intro r hr
    refine ⟨⟨fun h => absurd h hr, fun h => ?_⟩, fun _ => hrel⟩
    rw [hrel] at h
    exact absurd h hne
  unfold query_params_construct
  match query_json with
  | .null | .bool _ | .num _ | .str _ | .obj _ =>
    exact hside _ (by simp)
  | .arr [] =>
    exact hside _ (by simp)
  | .arr (e0 :: rest) =>
    by_cases hlen : rest.length > 2
    · simp only [hlen, if_true]
      exact hside _ (by simp)
    · simp only [hlen, if_false]
      match e0 with
      | .null | .bool _ | .str _ | .arr _ | .obj _ =>
        exact hside _ (by simp)
      | .num n =>
        match rest with
        | [] =>
          exact hside _ (by simp)
        | [r1] =>
          exact hside _ (by simp)
        | [r1, g] =>
          match g with
          | .null | .bool _ | .num _ | .str _ | .arr _ =>
            exact hside _ (by simp)
          | .obj members =>
            dsimp only
            cases hnr : static_optarg_as_bool members "noreply" false with
            | true =>
              rw [if_pos rfl]
              exact ⟨⟨fun _ => by simp [query_id_acquire], fun _ => rfl⟩,
                     fun h => absurd rfl h⟩
            | false =>
              rw [if_neg (by simp)]
              exact hside _ (by simp)
        | _ :: _ :: _ :: _ =>
          simp at hlen

theorem claim_C7_witness :
    cache_inv (cache_init 0) ∧
    ((query_params_construct
        (.arr [.num 1, .num 5, .obj [("noreply", .arr [.num Term.DATUM, .bool true])]])
        (cache_init 0)).1 = .ok true ↔
      (query_params_construct
        (.arr [.num 1, .num 5, .obj [("noreply", .arr [.num Term.DATUM, .bool true])]])
        (cache_init 0)).2.outstanding_query_ids =
        (cache_init 0).outstanding_query_ids ++ [(cache_init 0).next_query_id]) :=
  ⟨by decide,
   (claim_C7 (.arr [.num 1, .num 5, .obj [("noreply", .arr [.num Term.DATUM, .bool true])]])
      (cache_init 0) (by decide)).1⟩

/-! ### Term storage (`raw_term_t`, `term_storage_t`) -/

/-- One term node (`raw_term_t`). Pointers to other nodes of the same storage
are arena indices; `src` is the `REFERENCE` target pointer (`none` models
`nullptr`, the value set by `raw_term_t`'s default constructor). `args_` and
`optargs_` hold the intrusive child lists as index sequences; `value` is the
datum payload of a `DATUM` term. -/
structure raw_term_t where
  type : Int
  bt : Nat
  value : Datum := .null
  args_ : List Nat := []
  optargs_ : List Nat := []
  optarg_name : String := ""
  src : Option Nat := none
deriving Repr

/-- `term_storage_t`: the append-only arena of term nodes (`terms`, a
`segmented_vector_t` in the source, so nodes never move), the global optarg
list (indices of its member terms), the lazily computed query start time, and
two counters standing for the external clock position and the backtrace
registry (only freshness of generated frame ids is observable here). -/
structure term_storage_t where
  terms : List raw_term_t := []
  global_optarg_list : List Nat := []
  start_time : Option Datum := none
  clock_tick : Nat := 0
  bt_counter : Nat := 0
deriving Repr

/-- `base_exc_t` error kinds thrown by this subsystem. -/
inductive base_exc_t where
  | GENERIC
deriving Repr, DecidableEq

/-- `exc_t`: a term-level parse error with kind, message and backtrace id. -/
structure exc_t where
  kind : base_exc_t
  msg : String
  bt : Nat
deriving Repr

/-- `term_storage_t::get_time()`: returns the cached query start time,
sampling `pseudo::time_now()` (the external clock, modelled as a function of
the number of samples taken so far) on first use. -/
def get_time (clock : Nat → Datum) (s : term_storage_t) : Datum × term_storage_t :=
  match s.start_time with
  | some d => (d, s)
  | none =>
    (clock s.clock_tick,
     { s with start_time := some (clock s.clock_tick), clock_tick := s.clock_tick + 1 })

/-- `term_storage_t::new_term(type, bt)`: appends a fresh node to the arena
and returns its index (the source returns a stable pointer into
`terms`). All other fields start from `raw_term_t`'s defaults. -/
def new_term (s : term_storage_t) (ty : Int) (bt : Nat) : Nat × term_storage_t :=
  (s.terms.length, { s with terms := s.terms ++ [{ type := ty, bt := bt }] })

/-- `term_storage_t::new_ref(src)`: appends a `REFERENCE` node carrying the
source term's backtrace id; when the source is itself a `REFERENCE` the
one-hop indirection is collapsed by taking the source's own target instead.
An index outside the arena corresponds to an invalid pointer, which is
outside the model (callers always pass live nodes); it leaves the state
unchanged. -/
def new_ref (s : term_storage_t) (srcIdx : Nat) : Nat × term_storage_t :=
  match s.terms[srcIdx]? with
  | none => (s.terms.length, s)
  | some srcTerm =>
    let tgt : Option Nat :=
      if srcTerm.type = REFERENCE then srcTerm.src else some srcIdx
    (s.terms.length,
     { s with terms :=
        s.terms ++ [{ type := REFERENCE, bt := srcTerm.bt, src := tgt }] })

/-- In-place update of the node at index `i` (the source mutates through a
stable `raw_term_t *`). -/
def modify_term (s : term_storage_t) (i : Nat) (f : raw_term_t → raw_term_t) :
    term_storage_t :=
  match s.terms[i]? with
  | some t => { s with terms := s.terms.set i (f t) }
  | none => s

/-- `args_out->push_back(t)` for the argument list of the node `parent`. -/
def push_arg (s : term_storage_t) (parent : Nat) (t : Nat) : term_storage_t :=
  modify_term s parent (fun tm => { tm with args_ := tm.args_ ++ [t] })

/-- `optargs_out->push_back(t)` for the optarg list of the node `parent`. -/
def push_optarg (s : term_storage_t) (parent : Nat) (t : Nat) : term_storage_t :=
  modify_term s parent (fun tm => { tm with optargs_ := tm.optargs_ ++ [t] })

/-- `backtrace_registry_t::new_frame(bt, datum)`: the registry is an
append-only store of source positions; only the freshness of the returned id
matters to this subsystem, so it is a counter (0 is
`backtrace_id_t::empty()`, fresh frames are positive). The datum describing
the frame is recorded in the registry and never read back here. -/
def new_frame (s : term_storage_t) : Nat × term_storage_t :=
  (s.bt_counter + 1, { s with bt_counter := s.bt_counter + 1 })

/-- The post-processing step of `parse_internal`: a term that came out of
parsing as a nullary call to `NOW` (type `NOW`, no args, no optargs) is
rewritten in place to a `DATUM` carrying `get_time()`. On any other term this
is the identity (the source guards it with exactly this condition). -/
def now_rewrite (clock : Nat → Datum) (i : Nat) (s : term_storage_t) :
    Nat × term_storage_t :=
  match s.terms[i]? with
  | some t =>
    if t.type = Term.NOW ∧ t.args_ = [] ∧ t.optargs_ = [] then
      let p := get_time clock s
      (i, modify_term p.2 i (fun tm => { tm with type := Term.DATUM, value := p.1 }))
    else (i, s)
  | none => (i, s)

mutual

/-- `term_storage_t::parse_internal(rapidjson::Value v, bt_reg, bt)`.
The first `Nat` argument is structural-recursion fuel (the C++ recursion is
bounded by the JSON value's depth; the wrapper `parse_internal_run` passes
`sizeOf v`, which the fuel-adequacy arguments below show is enough, so the
fuel-exhausted branch is unreachable from the wrapper). `bt_reg` tells
whether a backtrace registry was passed (`nullptr` ↦ `false`).
Branches, in source order: an array must have 1-3 elements and a numeric
element 0; a `DATUM` array must have exactly 2 elements and takes its datum
from element 1; otherwise element 1 is the args array and element 2 the
optargs object, and the nullary-`NOW` rewrite runs afterwards; a JSON object
becomes a `MAKE_OBJ` term whose optargs are its members (the source calls
`add_optargs` on `v` itself, whose object check is vacuous there, hence the
direct loop call); anything else becomes a `DATUM` term via `to_datum`. -/
def parse_internal (clock : Nat → Datum) :
    Nat → JValue → Bool → Nat → term_storage_t → Except exc_t (Nat × term_storage_t)
  | 0, _, _, bt, _ => .error ⟨.GENERIC, "recursion fuel exhausted", bt⟩
  | fuel + 1, v, bt_reg, bt, s =>
    match v with
    -- check_term_size: 0 or more than 3 elements is a size error (these two
    -- arms are that size test, written as patterns so that the 4-and-more
    -- case is decided before anything else, exactly as the source checks
    -- the size before looking at v[0])
    | .arr [] =>
      .error ⟨.GENERIC, "Expected an array of 1, 2, or 3 elements", bt⟩
    | .arr (_ :: _ :: _ :: _ :: _) =>
      .error ⟨.GENERIC, "Expected an array of 1, 2, or 3 elements", bt⟩
    | .arr (e0 :: rest) =>
        match e0 with
        | .num ty =>
          let p := new_term s ty bt
          if ty = Term.DATUM then
            match rest with
            | [d1] =>
              .ok (now_rewrite clock p.1
                (modify_term p.2 p.1 (fun t => { t with value := to_datum d1 })))
            | _ => .error ⟨.GENERIC, "Expected 2 items in array", bt⟩
          else
            match rest with
            | [] => .ok (now_rewrite clock p.1 p.2)
            | [a1] =>
              (add_args clock fuel a1 p.1 bt_reg bt p.2).map
                (fun s2 => now_rewrite clock p.1 s2)
            | [a1, a2] =>
              (add_args clock fuel a1 p.1 bt_reg bt p.2).bind
                (fun s2 => (add_optargs clock fuel a2 p.1 bt_reg bt s2).map
                  (fun s3 => now_rewrite clock p.1 s3))
            | _ :: _ :: _ :: _ =>
              -- unreachable: arrays of 4 or more elements were rejected above
              .error ⟨.GENERIC, "Expected an array of 1, 2, or 3 elements", bt⟩
        | _ => .error ⟨.GENERIC, "Query parse error: expected NUMBER but found", bt⟩
    | .obj members =>
      let p := new_term s Term.MAKE_OBJ bt
      (add_optargs_loop clock fuel members p.1 bt_reg bt p.2).map
        (fun s2 => (p.1, s2))
    | _ =>
      let p := new_term s Term.DATUM bt
      .ok (p.1, modify_term p.2 p.1 (fun t => { t with value := to_datum v }))

/-- `term_storage_t::add_args(args, args_out, bt_reg, bt)`: the args value
must be a JSON array; its elements are parsed in order and appended to the
parent's argument list, each under a fresh child backtrace frame when a
registry is present. -/
def add_args (clock : Nat → Datum) :
    Nat → JValue → Nat → Bool → Nat → term_storage_t → Except exc_t term_storage_t
  | 0, _, _, _, bt, _ => .error ⟨.GENERIC, "recursion fuel exhausted", bt⟩
  | fuel + 1, args, parent, bt_reg, bt, s =>
    match args with
    | .arr xs => add_args_loop clock fuel xs parent bt_reg bt s
    | _ => .error ⟨.GENERIC, "Query parse error: expected ARRAY but found", bt⟩

/-- The `for` loop body of `add_args`. -/
def add_args_loop (clock : Nat → Datum) :
    Nat → List JValue → Nat → Bool → Nat → term_storage_t → Except exc_t term_storage_t
  | 0, _, _, _, bt, _ => .error ⟨.GENERIC, "recursion fuel exhausted", bt⟩
  | _ + 1, [], _, _, _, s => .ok s
  | fuel + 1, x :: xs, parent, bt_reg, bt, s =>
    let fr := if bt_reg then new_frame s else (0, s)
    (parse_internal clock fuel x bt_reg fr.1 fr.2).bind
      (fun r => add_args_loop clock fuel xs parent bt_reg bt (push_arg r.2 parent r.1))

/-- `term_storage_t::add_optargs(optargs, optargs_out, bt_reg, bt)`: the
optargs value must be a JSON object; each member's value is parsed (under a
string-labelled child frame when a registry is present), appended to the
parent's optarg list, and the member's key is stored as the child's
`optarg_name`. -/
def add_optargs (clock : Nat → Datum) :
    Nat → JValue → Nat → Bool → Nat → term_storage_t → Except exc_t term_storage_t
  | 0, _, _, _, bt, _ => .error ⟨.GENERIC, "recursion fuel exhausted", bt⟩
  | fuel + 1, optargs, parent, bt_reg, bt, s =>
    match optargs with
    | .obj ms => add_optargs_loop clock fuel ms parent bt_reg bt s
    | _ => .error ⟨.GENERIC, "Query parse error: expected OBJECT but found", bt⟩

/-- The `for` loop body of `add_optargs`. -/
def add_optargs_loop (clock : Nat → Datum) :
    Nat → List (String × JValue) → Nat → Bool → Nat → term_storage_t →
    Except exc_t term_storage_t
  | 0, _, _, _, bt, _ => .error ⟨.GENERIC, "recursion fuel exhausted", bt⟩
  | _ + 1, [], _, _, _, s => .ok s
  | fuel + 1, (k, x) :: ms, parent, bt_reg, bt, s =>
    let fr := if bt_reg then new_frame s else (0, s)
    (parse_internal clock fuel x bt_reg fr.1 fr.2).bind
      (fun r =>
        add_optargs_loop clock fuel ms parent bt_reg bt
          (modify_term (push_optarg r.2 parent r.1) r.1
            (fun tm => { tm with optarg_name := k })))

end

mutual

/-- Size of a JSON value, used as recursion fuel for `parse_internal`. -/
def jsize : JValue → Nat
  | .null => 1
  | .bool _ => 1
  | .num _ => 1
  | .str _ => 1
  | .arr xs => 1 + jsize_list xs
  | .obj ms => 1 + jsize_members ms

/-- Size of a JSON array's element list. -/
def jsize_list : List JValue → Nat
  | [] => 1
  | x :: xs => 1 + jsize x + jsize_list xs

/-- Size of a JSON object's member list. -/
def jsize_members : List (String × JValue) → Nat
  | [] => 1
  | (_, v) :: ms => 2 + jsize v + jsize_members ms

end

/-- `parse_internal` as called by the source (no fuel): `jsize v` always
suffices, every recursive call strictly decreasing the size of the JSON
value in hand, so the fuel-exhausted branch is unreachable from here. -/
def parse_internal_run (clock : Nat → Datum) (v : JValue) (bt_reg : Bool)
    (bt : Nat) (s : term_storage_t) : Except exc_t (Nat × term_storage_t) :=
  parse_internal clock (jsize v) v bt_reg bt s

/-- `term_storage_t::add_root_term(v)`: parses the root term under the
query's backtrace registry and the empty backtrace id. -/
def add_root_term (clock : Nat → Datum) (v : JValue) (s : term_storage_t) :
    Except exc_t (Nat × term_storage_t) :=
  parse_internal_run clock v true 0 s

/-! ### Structural facts about one parse run -/

theorem modify_term_getElem (s : term_storage_t) (i : Nat) (f : raw_term_t → raw_term_t)
    (j : Nat) :
    (modify_term s i f).terms[j]? = if j = i then (s.terms[i]?).map f else s.terms[j]? := by
  unfold modify_term
  cases h : s.terms[i]? with
  | none =>
    by_cases hj : j = i
    · subst hj; simp [h]
    · simp [hj]
  | some t =>
    have hi : i < s.terms.length := by
      by_contra hge
      rw [List.getElem?_eq_none (by omega)] at h
      exact Option.noConfusion h
    simp only [List.getElem?_set]
    by_cases hj : j = i
    · subst hj; simp [hi, h]
    · rw [if_neg (show ¬ i = j from fun hh => hj hh.symm), if_neg hj]

theorem modify_term_length (s : term_storage_t) (i : Nat) (f : raw_term_t → raw_term_t) :
    (modify_term s i f).terms.length = s.terms.length := by
  unfold modify_term
  cases s.terms[i]? <;> simp

theorem modify_term_global (s : term_storage_t) (i : Nat) (f : raw_term_t → raw_term_t) :
    (modify_term s i f).global_optarg_list = s.global_optarg_list := by
  unfold modify_term
  cases s.terms[i]? <;> simp

theorem modify_term_start (s : term_storage_t) (i : Nat) (f : raw_term_t → raw_term_t) :
    (modify_term s i f).start_time = s.start_time := by
  unfold modify_term
  cases s.terms[i]? <;> simp

theorem get_time_terms (clock : Nat → Datum) (s : term_storage_t) :
    (get_time clock s).2.terms = s.terms := by
  unfold get_time
  cases s.start_time <;> simp

theorem get_time_global (clock : Nat → Datum) (s : term_storage_t) :
    (get_time clock s).2.global_optarg_list = s.global_optarg_list := by
  unfold get_time
  cases s.start_time <;> simp

theorem get_time_of_some (clock : Nat → Datum) (s : term_storage_t) (d : Datum)
    (h : s.start_time = some d) : get_time clock s = (d, s) := by
  unfold get_time
  rw [h]

theorem get_time_caches (clock : Nat → Datum) (s : term_storage_t) :
    (get_time clock s).2.start_time = some (get_time clock s).1 := by
  unfold get_time
  cases h : s.start_time with
  | some d => simpa using h
  | none => simp

/-- Every node freshly created during a parse ends up with a null `src`
pointer (only `new_ref`, never called from parsing, sets one) and is not a
nullary `NOW` (those are rewritten to `DATUM` as soon as they are complete). -/
def new_node_ok (t : raw_term_t) : Prop :=
  t.src = none ∧ ¬(t.type = Term.NOW ∧ t.args_ = [] ∧ t.optargs_ = [])

/-- The parts of the storage a parse run never touches: the global optarg
list, and the start-time cache once it holds a value. -/
def storage_stable_for (s s1 : term_storage_t) : Prop :=
  s1.global_optarg_list = s.global_optarg_list ∧
  (∀ d, s.start_time = some d → s1.start_time = some d)

/-- All nodes at or above the old arena size satisfy `new_node_ok`. -/
def new_nodes_ok (s s1 : term_storage_t) : Prop :=
  ∀ j t, s.terms.length ≤ j → s1.terms[j]? = some t → new_node_ok t

/-- What a successful `parse_internal` run guarantees: the produced index is
the old arena size, the arena only grew, pre-existing nodes are untouched,
the untouched parts stay stable, and fresh nodes are well formed. -/
def parse_ok_spec (s : term_storage_t) (i : Nat) (s1 : term_storage_t) : Prop :=
  i = s.terms.length ∧
  s.terms.length < s1.terms.length ∧
  (∀ j, j < s.terms.length → s1.terms[j]? = s.terms[j]?) ∧
  storage_stable_for s s1 ∧
  new_nodes_ok s s1

/-- What a successful `add_args`/`add_args_loop` run guarantees: besides
growth, stability away from the parent and fresh-node well-formedness, the
parent node is changed only by appending fresh indices to its `args_`. -/
def args_loop_ok_spec (parent : Nat) (s s1 : term_storage_t) : Prop :=
  s.terms.length ≤ s1.terms.length ∧
  (∀ j, j < s.terms.length → j ≠ parent → s1.terms[j]? = s.terms[j]?) ∧
  (∃ new, s1.terms[parent]? =
      (s.terms[parent]?).map (fun t => { t with args_ := t.args_ ++ new }) ∧
    (∀ m ∈ new, s.terms.length ≤ m ∧ m < s1.terms.length)) ∧
  storage_stable_for s s1 ∧
  new_nodes_ok s s1

/-- What a successful `add_optargs_loop` run over members with the given keys
guarantees: like `args_loop_ok_spec` but on `optargs_`, and the appended
children carry the members' keys as their `optarg_name`s, in order. -/
def optargs_loop_ok_spec (parent : Nat) (keys : List String)
    (s s1 : term_storage_t) : Prop :=
  s.terms.length ≤ s1.terms.length ∧
  (∀ j, j < s.terms.length → j ≠ parent → s1.terms[j]? = s.terms[j]?) ∧
  (∃ new, s1.terms[parent]? =
      (s.terms[parent]?).map (fun t => { t with optargs_ := t.optargs_ ++ new }) ∧
    new.map (fun m => (s1.terms[m]?).map raw_term_t.optarg_name) = keys.map some ∧
    (∀ m ∈ new, s.terms.length ≤ m ∧ m < s1.terms.length)) ∧
  storage_stable_for s s1 ∧
  new_nodes_ok s s1

theorem now_rewrite_spec (clock : Nat → Datum) (i : Nat) (s : term_storage_t) :
    (now_rewrite clock i s).1 = i ∧
    (now_rewrite clock i s).2.terms.length = s.terms.length ∧
    (∀ j, j ≠ i → (now_rewrite clock i s).2.terms[j]? = s.terms[j]?) ∧
    storage_stable_for s (now_rewrite clock i s).2 ∧
    (∀ t, s.terms[i]? = some t →
      ∃ t2, (now_rewrite clock i s).2.terms[i]? = some t2 ∧ t2.src = t.src ∧
        ¬(t2.type = Term.NOW ∧ t2.args_ = [] ∧ t2.optargs_ = [])) := by
  unfold now_rewrite
  cases h : s.terms[i]? with
  | none =>
    exact ⟨rfl, rfl, fun j _ => rfl, ⟨rfl, fun d hd => hd⟩,
      fun t ht => Option.noConfusion ht⟩
  | some t =>
    dsimp only
    by_cases hcond : t.type = Term.NOW ∧ t.args_ = [] ∧ t.optargs_ = []
    · rw [if_pos hcond]
      refine ⟨rfl, ?_, ?_, ?_, ?_⟩
      · simp [modify_term_length, get_time_terms]
      · intro j hj
        rw [modify_term_getElem, if_neg hj, get_time_terms]
      · constructor
        · rw [modify_term_global, get_time_global]
        · intro d hd
          rw [modify_term_start]
          have hgt := get_time_of_some clock s d hd
          rw [hgt]
          exact hd
      · intro t0 ht0
        injection ht0 with ht0
        subst ht0
        refine ⟨{ t with type := Term.DATUM, value := (get_time clock s).1 }, ?_, rfl, ?_⟩
        · rw [modify_term_getElem, if_pos rfl, get_time_terms, h]
          rfl
        · intro hc
          have hc1 : Term.DATUM = Term.NOW := hc.1
          exact absurd hc1 (by decide)
    · rw [if_neg hcond]
      refine ⟨rfl, rfl, fun j _ => rfl, ⟨rfl, fun d hd => hd⟩, ?_⟩
      intro t0 ht0
      injection ht0 with ht0
      subst ht0
      exact ⟨t, h, rfl, hcond⟩

theorem storage_stable_refl (s : term_storage_t) : storage_stable_for s s :=
  ⟨rfl, fun _ hd => hd⟩

theorem storage_stable_trans {s1 s2 s3 : term_storage_t}
    (h1 : storage_stable_for s1 s2) (h2 : storage_stable_for s2 s3) :
    storage_stable_for s1 s3 :=
  ⟨h2.1.trans h1.1, fun d hd => h2.2 d (h1.2 d hd)⟩

theorem fr_terms (reg : Bool) (s : term_storage_t) :
    (if reg then new_frame s else ((0 : Nat), s)).2.terms = s.terms := by
  cases reg <;> rfl

theorem fr_stable (reg : Bool) (s : term_storage_t) :
    storage_stable_for s (if reg then new_frame s else ((0 : Nat), s)).2 := by
  cases reg <;> exact ⟨rfl, fun _ hd => hd⟩

theorem except_map_ok {α β γ : Type} {x : Except γ α} {f : α → β} {y : β}
    (h : x.map f = .ok y) : ∃ z, x = .ok z ∧ f z = y := by
  cases x with
  | error e => simp [Except.map] at h
  | ok z => exact ⟨z, rfl, by simpa [Except.map] using h⟩

theorem except_bind_ok {α β γ : Type} {x : Except γ α} {f : α → Except γ β} {y : β}
    (h : x.bind f = .ok y) : ∃ z, x = .ok z ∧ f z = .ok y := by
  cases x with
  | error e => simp [Except.bind] at h
  | ok z => exact ⟨z, rfl, by simpa [Except.bind] using h⟩

/-- A weaker mid-run description of a parse: everything of `parse_ok_spec`
except that the produced node itself is only known to have a null `src`
(before the nullary-`NOW` rewrite has been applied to it). -/
def parse_pre_spec (s : term_storage_t) (i : Nat) (s2 : term_storage_t) : Prop :=
  i = s.terms.length ∧
  s.terms.length < s2.terms.length ∧
  (∀ j, j < s.terms.length → s2.terms[j]? = s.terms[j]?) ∧
  storage_stable_for s s2 ∧
  (∀ j t, s.terms.length ≤ j → j ≠ i → s2.terms[j]? = some t → new_node_ok t) ∧
  (∃ ti, s2.terms[i]? = some ti ∧ ti.src = none)

theorem parse_ok_of_pre_now (clock : Nat → Datum) {s : term_storage_t} {i : Nat}
    {s2 : term_storage_t} (h : parse_pre_spec s i s2) :
    parse_ok_spec s i (now_rewrite clock i s2).2 := by
  obtain ⟨hi, hlen, hpre, hst, hnn, ti, hti, htisrc⟩ := h
  obtain ⟨-, hnlen, hnpre, hnst, hnode⟩ := now_rewrite_spec clock i s2
  refine ⟨hi, by omega, ?_, storage_stable_trans hst hnst, ?_⟩
  · intro j hj
    rw [hnpre j (by omega), hpre j hj]
  · intro j t hj ht
    by_cases hji : j = i
    · subst hji
      obtain ⟨t2, ht2, ht2src, ht2now⟩ := hnode ti hti
      rw [ht2] at ht
      injection ht with ht
      subst ht
      exact ⟨ht2src.trans htisrc, ht2now⟩
    · rw [hnpre j hji] at ht
      exact hnn j t hj hji ht

theorem push_arg_getElem (s : term_storage_t) (parent t j : Nat) :
    (push_arg s parent t).terms[j]? =
      if j = parent then
        (s.terms[parent]?).map (fun tm => { tm with args_ := tm.args_ ++ [t] })
      else s.terms[j]? :=
  modify_term_getElem s parent _ j

theorem push_arg_length (s : term_storage_t) (parent t : Nat) :
    (push_arg s parent t).terms.length = s.terms.length :=
  modify_term_length s parent _

theorem push_arg_stable (s : term_storage_t) (parent t : Nat) :
    storage_stable_for s (push_arg s parent t) :=
  ⟨modify_term_global s parent _, fun d hd => (modify_term_start s parent _).symm ▸ hd⟩

theorem push_optarg_getElem (s : term_storage_t) (parent t j : Nat) :
    (push_optarg s parent t).terms[j]? =
      if j = parent then
        (s.terms[parent]?).map (fun tm => { tm with optargs_ := tm.optargs_ ++ [t] })
      else s.terms[j]? :=
  modify_term_getElem s parent _ j

theorem push_optarg_length (s : term_storage_t) (parent t : Nat) :
    (push_optarg s parent t).terms.length = s.terms.length :=
  modify_term_length s parent _

theorem push_optarg_stable (s : term_storage_t) (parent t : Nat) :
    storage_stable_for s (push_optarg s parent t) :=
  ⟨modify_term_global s parent _, fun d hd => (modify_term_start s parent _).symm ▸ hd⟩

theorem modify_term_stable (s : term_storage_t) (i : Nat) (f : raw_term_t → raw_term_t) :
    storage_stable_for s (modify_term s i f) :=
  ⟨modify_term_global s i f, fun d hd => (modify_term_start s i f).symm ▸ hd⟩

theorem args_loop_step (clock : Nat → Datum) (fuel : Nat)
    (ihp : ∀ v reg bt s i s1, parse_internal clock fuel v reg bt s = .ok (i, s1) →
      parse_ok_spec s i s1)
    (ihal : ∀ xs parent reg bt s s1,
      add_args_loop clock fuel xs parent reg bt s = .ok s1 →
      parent < s.terms.length → args_loop_ok_spec parent s s1) :
    ∀ xs parent reg bt s s1,
      add_args_loop clock (fuel + 1) xs parent reg bt s = .ok s1 →
      parent < s.terms.length → args_loop_ok_spec parent s s1 := by
  intro xs parent reg bt s s1 h hpar
  cases xs with
  | nil =>
    simp only [add_args_loop] at h
    injection h with h
    subst h
    refine ⟨Nat.le_refl _, fun j _ _ => rfl, ⟨[], ?_, by simp⟩,
      storage_stable_refl s, ?_⟩
    · cases s.terms[parent]? with
      | none => rfl
      | some t => simp
    · intro j t hj ht
      rw [List.getElem?_eq_none (by omega)] at ht
      exact Option.noConfusion ht
  | cons x xs =>
    simp only [add_args_loop] at h
    obtain ⟨r, hp, h⟩ := except_bind_ok h
    obtain ⟨i0, s0⟩ := r
    dsimp only at h
    have hfrt : (if reg then new_frame s else ((0 : Nat), s)).2.terms = s.terms :=
      fr_terms reg s
    obtain ⟨hi0, hlen0, hpre0, hst0, hnn0⟩ := ihp x reg _ _ i0 s0 hp
    have hi0s : i0 = s.terms.length := by rw [hi0, hfrt]
    have hlen0s : s.terms.length < s0.terms.length := by rw [← hfrt]; exact hlen0
    have hpre0s : ∀ j, j < s.terms.length → s0.terms[j]? = s.terms[j]? := by
      intro j hj
      rw [hpre0 j (by rw [hfrt]; exact hj), hfrt]
    have hnn0s : ∀ j t, s.terms.length ≤ j → s0.terms[j]? = some t → new_node_ok t := by
      intro j t hj ht
      exact hnn0 j t (by rw [hfrt]; exact hj) ht
    have hst0s : storage_stable_for s s0 := storage_stable_trans (fr_stable reg s) hst0
    have hs3len : (push_arg s0 parent i0).terms.length = s0.terms.length :=
      push_arg_length s0 parent i0
    have hloop := ihal xs parent reg bt _ s1 h (by omega)
    obtain ⟨hlenL, hpreL, ⟨new2, hparL, hboundL⟩, hstL, hnnL⟩ := hloop
    have hparne : ∀ j, s.terms.length ≤ j → j ≠ parent := by
      intro j hj; omega
    refine ⟨by omega, ?_, ?_, ?_, ?_⟩
    · intro j hj hjp
      rw [hpreL j (by omega) hjp, push_arg_getElem, if_neg hjp, hpre0s j hj]
    · refine ⟨i0 :: new2, ?_, ?_⟩
      · rw [hparL, push_arg_getElem, if_pos rfl, hpre0s parent hpar]
        cases s.terms[parent]? with
        | none => rfl
        | some t => simp
      · intro m hm
        rcases List.mem_cons.mp hm with hm | hm
        · subst hm
          constructor
          · omega
          · omega
        · have := hboundL m hm
          omega
    · exact storage_stable_trans hst0s
        (storage_stable_trans (push_arg_stable s0 parent i0) hstL)
    · intro j t hj ht
      by_cases hj3 : j < s0.terms.length
      · rw [hpreL j (by omega) (hparne j hj), push_arg_getElem,
          if_neg (hparne j hj)] at ht
        exact hnn0s j t hj ht
      · exact hnnL j t (by omega) ht

theorem optargs_loop_step (clock : Nat → Datum) (fuel : Nat)
    (ihp : ∀ v reg bt s i s1, parse_internal clock fuel v reg bt s = .ok (i, s1) →
      parse_ok_spec s i s1)
    (ihol : ∀ ms parent reg bt s s1,
      add_optargs_loop clock fuel ms parent reg bt s = .ok s1 →
      parent < s.terms.length → optargs_loop_ok_spec parent (ms.map Prod.fst) s s1) :
    ∀ ms parent reg bt s s1,
      add_optargs_loop clock (fuel + 1) ms parent reg bt s = .ok s1 →
      parent < s.terms.length →
      optargs_loop_ok_spec parent (ms.map Prod.fst) s s1 := by
  intro ms parent reg bt s s1 h hpar
  cases ms with
  | nil =>
    simp only [add_optargs_loop] at h
    injection h with h
    subst h
    refine ⟨Nat.le_refl _, fun j _ _ => rfl, ⟨[], ?_, by simp, by simp⟩,
      storage_stable_refl s, ?_⟩
    · cases s.terms[parent]? with
      | none => rfl
      | some t => simp
    · intro j t hj ht
      rw [List.getElem?_eq_none (by omega)] at ht
      exact Option.noConfusion ht
  | cons kx ms =>
    obtain ⟨k, x⟩ := kx
    simp only [add_optargs_loop] at h
    obtain ⟨r, hp, h⟩ := except_bind_ok h
    obtain ⟨i0, s0⟩ := r
    dsimp only at h
    have hfrt : (if reg then new_frame s else ((0 : Nat), s)).2.terms = s.terms :=
      fr_terms reg s
    obtain ⟨hi0, hlen0, hpre0, hst0, hnn0⟩ := ihp x reg _ _ i0 s0 hp
    have hi0s : i0 = s.terms.length := by rw [hi0, hfrt]
    have hlen0s : s.terms.length < s0.terms.length := by rw [← hfrt]; exact hlen0
    have hpre0s : ∀ j, j < s.terms.length → s0.terms[j]? = s.terms[j]? := by
      intro j hj
      rw [hpre0 j (by rw [hfrt]; exact hj), hfrt]
    have hnn0s : ∀ j t, s.terms.length ≤ j → s0.terms[j]? = some t → new_node_ok t := by
      intro j t hj ht
      exact hnn0 j t (by rw [hfrt]; exact hj) ht
    have hst0s : storage_stable_for s s0 := storage_stable_trans (fr_stable reg s) hst0
    have hpush_len : (push_optarg s0 parent i0).terms.length = s0.terms.length :=
      push_optarg_length s0 parent i0
    have hs3len :
        (modify_term (push_optarg s0 parent i0) i0
          (fun tm => { tm with optarg_name := k })).terms.length =
          s0.terms.length := by
      rw [modify_term_length, hpush_len]
    have hi0ne : i0 ≠ parent := by omega
    -- the freshly parsed child exists in s0
    have hi0some : ∃ ti, s0.terms[i0]? = some ti := by
      cases hti : s0.terms[i0]? with
      | none =>
        rw [List.getElem?_eq_none_iff] at hti
        omega
      | some ti => exact ⟨ti, rfl⟩
    obtain ⟨ti, hti⟩ := hi0some
    -- the state after push_optarg and the optarg_name write
    have hs3get : ∀ j,
        (modify_term (push_optarg s0 parent i0) i0
          (fun tm => { tm with optarg_name := k })).terms[j]? =
        if j = i0 then some { ti with optarg_name := k }
        else if j = parent then
          (s0.terms[parent]?).map (fun tm => { tm with optargs_ := tm.optargs_ ++ [i0] })
        else s0.terms[j]? := by
      intro j
      rw [modify_term_getElem]
      by_cases hji : j = i0
      · subst hji
        rw [if_pos rfl, push_optarg_getElem, if_neg hi0ne, hti]
        rw [if_pos rfl]
        rfl
      · rw [if_neg hji, push_optarg_getElem, if_neg hji]
    have hloop := ihol ms parent reg bt _ s1 h (by omega)
    obtain ⟨hlenL, hpreL, ⟨new2, hparL, hnamesL, hboundL⟩, hstL, hnnL⟩ := hloop
    rw [hs3len] at hlenL
    have hparne : ∀ j, s.terms.length ≤ j → j ≠ parent := by
      intro j hj; omega
    refine ⟨by omega, ?_, ?_, ?_, ?_⟩
    · intro j hj hjp
      rw [hpreL j (by omega) hjp, hs3get, if_neg (by omega), if_neg hjp, hpre0s j hj]
    · refine ⟨i0 :: new2, ?_, ?_, ?_⟩
      · rw [hparL, hs3get, if_neg (Ne.symm hi0ne), if_pos rfl, hpre0s parent hpar]
        cases s.terms[parent]? with
        | none => rfl
        | some t => simp
      · simp only [List.map_cons]
        rw [hnamesL]
        congr 1
        show (s1.terms[i0]?).map raw_term_t.optarg_name = some k
        rw [hpreL i0 (by omega) hi0ne, hs3get, if_pos rfl]
        rfl
      · intro m hm
        rcases List.mem_cons.mp hm with hm | hm
        · subst hm
          exact ⟨by omega, by omega⟩
        · have := hboundL m hm
          rw [hs3len] at this
          omega
    · refine storage_stable_trans hst0s (storage_stable_trans ?_ hstL)
      exact storage_stable_trans (push_optarg_stable s0 parent i0)
        (modify_term_stable _ i0 _)
    · intro j t hj ht
      by_cases hj3 : j < s0.terms.length
      · rw [hpreL j (by omega) (hparne j hj), hs3get] at ht
        by_cases hji : j = i0
        · rw [if_pos hji] at ht
          injection ht with ht
          subst ht
          have hok := hnn0s i0 ti (by omega) hti
          exact ⟨hok.1, hok.2⟩
        · rw [if_neg hji, if_neg (hparne j hj)] at ht
          exact hnn0s j t hj ht
      · exact hnnL j t (by omega) ht

theorem new_term_getElem (s : term_storage_t) (ty : Int) (bt : Nat) (j : Nat) :
    (new_term s ty bt).2.terms[j]? =
      if j = s.terms.length then some { type := ty, bt := bt } else s.terms[j]? := by
  unfold new_term
  dsimp only
  by_cases hj : j = s.terms.length
  · subst hj
    rw [if_pos rfl]
    exact List.getElem?_concat_length _ _
  · rw [if_neg hj, List.getElem?_append]
    by_cases hlt : j < s.terms.length
    · rw [if_pos hlt]
    · rw [if_neg hlt]
      rw [List.getElem?_eq_none (by simp; omega), List.getElem?_eq_none (by omega)]

theorem new_term_length (s : term_storage_t) (ty : Int) (bt : Nat) :
    (new_term s ty bt).2.terms.length = s.terms.length + 1 := by
  unfold new_term
  simp

theorem new_term_stable (s : term_storage_t) (ty : Int) (bt : Nat) :
    storage_stable_for s (new_term s ty bt).2 :=
  ⟨rfl, fun _ hd => hd⟩

theorem parse_pre_of_ok {s : term_storage_t} {i : Nat} {s2 : term_storage_t}
    (h : parse_ok_spec s i s2) : parse_pre_spec s i s2 := by
  obtain ⟨hi, hlen, hpre, hst, hnn⟩ := h
  refine ⟨hi, hlen, hpre, hst, fun j t hj _ ht => hnn j t hj ht, ?_⟩
  cases hti : s2.terms[i]? with
  | none =>
    rw [List.getElem?_eq_none_iff] at hti
    omega
  | some ti =>
    exact ⟨ti, rfl, (hnn i ti (by omega) hti).1⟩

/-- The freshly created leaf state shared by the scalar branch and the
`[DATUM, x]` branch of `parse_internal`. -/
theorem scalar_leaf_spec (s : term_storage_t) (bt : Nat) (ty : Int) (d : Datum)
    (hty : ¬(ty = Term.NOW)) :
    parse_ok_spec s s.terms.length
      (modify_term (new_term s ty bt).2 s.terms.length
        (fun t => { t with value := d })) := by
  have hlen := new_term_length s ty bt
  have hmlen := modify_term_length (new_term s ty bt).2 s.terms.length
    (fun t => { t with value := d })
  refine ⟨rfl, by omega, ?_, ?_, ?_⟩
  · intro j hj
    rw [modify_term_getElem, if_neg (by omega), new_term_getElem, if_neg (by omega)]
  · exact storage_stable_trans (new_term_stable s ty bt)
      (modify_term_stable _ _ _)
  · intro j t hj ht
    rw [modify_term_getElem] at ht
    by_cases hji : j = s.terms.length
    · rw [if_pos hji, new_term_getElem, if_pos rfl] at ht
      injection ht with ht
      subst ht
      exact ⟨rfl, fun hc => hty hc.1⟩
    · rw [if_neg hji, new_term_getElem, if_neg hji,
        List.getElem?_eq_none (by omega)] at ht
      exact Option.noConfusion ht

/-- The bare freshly created node, before any children are attached. -/
theorem bare_node_pre_spec (s : term_storage_t) (ty : Int) (bt : Nat) :
    parse_pre_spec s s.terms.length (new_term s ty bt).2 := by
  have hlen := new_term_length s ty bt
  refine ⟨rfl, by omega, ?_, new_term_stable s ty bt, ?_, ?_⟩
  · intro j hj
    rw [new_term_getElem, if_neg (by omega)]
  · intro j t hj hji ht
    rw [new_term_getElem, if_neg hji, List.getElem?_eq_none (by omega)] at ht
    exact Option.noConfusion ht
  · exact ⟨_, by rw [new_term_getElem, if_pos rfl], rfl⟩

/-- Attaching argument children to the fresh node preserves the mid-run
description of a parse. -/
theorem pre_spec_after_args {s : term_storage_t} {ty : Int} {bt : Nat}
    {s2 : term_storage_t}
    (hargs : args_loop_ok_spec s.terms.length (new_term s ty bt).2 s2) :
    parse_pre_spec s s.terms.length s2 := by
  have hlen := new_term_length s ty bt
  obtain ⟨hlenL, hpreL, ⟨new1, hparL, hboundL⟩, hstL, hnnL⟩ := hargs
  rw [hlen] at hlenL
  refine ⟨rfl, by omega, ?_, storage_stable_trans (new_term_stable s ty bt) hstL,
    ?_, ?_⟩
  · intro j hj
    rw [hpreL j (by omega) (by omega), new_term_getElem, if_neg (by omega)]
  · intro j t hj hji ht
    have hj2 : (new_term s ty bt).2.terms.length ≤ j := by
      rw [hlen]
      omega
    exact hnnL j t hj2 ht
  · refine ⟨{ type := ty, bt := bt, args_ := new1 }, ?_, rfl⟩
    rw [hparL, new_term_getElem, if_pos rfl]
    rfl

/-- Attaching optarg children (after argument children) likewise. -/
theorem pre_spec_after_optargs {s : term_storage_t} {i : Nat}
    {s2 s3 : term_storage_t} {keys : List String}
    (hpre : parse_pre_spec s i s2)
    (hopt : optargs_loop_ok_spec i keys s2 s3) :
    parse_pre_spec s i s3 := by
  obtain ⟨hi, hlen, hpre2, hst2, hnn2, ti, hti, htisrc⟩ := hpre
  obtain ⟨hlenL, hpreL, ⟨new2, hparL, _, hboundL⟩, hstL, hnnL⟩ := hopt
  subst hi
  refine ⟨rfl, by omega, ?_, storage_stable_trans hst2 hstL, ?_, ?_⟩
  · intro j hj
    rw [hpreL j (by omega) (by omega), hpre2 j hj]
  · intro j t hj hji ht
    by_cases hj2 : j < s2.terms.length
    · rw [hpreL j hj2 hji] at ht
      exact hnn2 j t hj hji ht
    · exact hnnL j t (by omega) ht
  · refine ⟨{ ti with optargs_ := ti.optargs_ ++ new2 }, ?_, htisrc⟩
    rw [hparL, hti]
    rfl

/-! Unfolding equations for `parse_internal` at successor fuel, one per shape
of the JSON value; each holds by definitional reduction. -/

theorem parse_internal_null_eq (clock : Nat → Datum) (fuel : Nat) (reg : Bool)
    (bt : Nat) (s : term_storage_t) :
    parse_internal clock (fuel + 1) JValue.null reg bt s =
      .ok ((new_term s Term.DATUM bt).1,
        modify_term (new_term s Term.DATUM bt).2 (new_term s Term.DATUM bt).1
          (fun t => { t with value := to_datum JValue.null })) := rfl

theorem parse_internal_bool_eq (clock : Nat → Datum) (fuel : Nat) (b : Bool)
    (reg : Bool) (bt : Nat) (s : term_storage_t) :
    parse_internal clock (fuel + 1) (JValue.bool b) reg bt s =
      .ok ((new_term s Term.DATUM bt).1,
        modify_term (new_term s Term.DATUM bt).2 (new_term s Term.DATUM bt).1
          (fun t => { t with value := to_datum (JValue.bool b) })) := rfl

theorem parse_internal_num_eq (clock : Nat → Datum) (fuel : Nat) (n : Int)
    (reg : Bool) (bt : Nat) (s : term_storage_t) :
    parse_internal clock (fuel + 1) (JValue.num n) reg bt s =
      .ok ((new_term s Term.DATUM bt).1,
        modify_term (new_term s Term.DATUM bt).2 (new_term s Term.DATUM bt).1
          (fun t => { t with value := to_datum (JValue.num n) })) := rfl

theorem parse_internal_str_eq (clock : Nat → Datum) (fuel : Nat) (str : String)
    (reg : Bool) (bt : Nat) (s : term_storage_t) :
    parse_internal clock (fuel + 1) (JValue.str str) reg bt s =
      .ok ((new_term s Term.DATUM bt).1,
        modify_term (new_term s Term.DATUM bt).2 (new_term s Term.DATUM bt).1
          (fun t => { t with value := to_datum (JValue.str str) })) := rfl

theorem parse_internal_obj_eq (clock : Nat → Datum) (fuel : Nat)
    (members : List (String × JValue)) (reg : Bool) (bt : Nat)
    (s : term_storage_t) :
    parse_internal clock (fuel + 1) (JValue.obj members) reg bt s =
      (add_optargs_loop clock fuel members (new_term s Term.MAKE_OBJ bt).1 reg bt
        (new_term s Term.MAKE_OBJ bt).2).map
        (fun s2 => ((new_term s Term.MAKE_OBJ bt).1, s2)) := rfl

theorem parse_internal_arr_nil_eq (clock : Nat → Datum) (fuel : Nat) (reg : Bool)
    (bt : Nat) (s : term_storage_t) :
    parse_internal clock (fuel + 1) (JValue.arr []) reg bt s =
      .error ⟨.GENERIC, "Expected an array of 1, 2, or 3 elements", bt⟩ := rfl

theorem parse_internal_arr_num_nil_eq (clock : Nat → Datum) (fuel : Nat)
    (ty : Int) (reg : Bool) (bt : Nat) (s : term_storage_t) :
    parse_internal clock (fuel + 1) (JValue.arr [JValue.num ty]) reg bt s =
      if ty = Term.DATUM then
        .error ⟨.GENERIC, "Expected 2 items in array", bt⟩
      else
        .ok (now_rewrite clock (new_term s ty bt).1 (new_term s ty bt).2) := rfl

theorem parse_internal_arr_num_one_eq (clock : Nat → Datum) (fuel : Nat)
    (ty : Int) (a1 : JValue) (reg : Bool) (bt : Nat) (s : term_storage_t) :
    parse_internal clock (fuel + 1) (JValue.arr [JValue.num ty, a1]) reg bt s =
      if ty = Term.DATUM then
        .ok (now_rewrite clock (new_term s ty bt).1
          (modify_term (new_term s ty bt).2 (new_term s ty bt).1
            (fun t => { t with value := to_datum a1 })))
      else
        (add_args clock fuel a1 (new_term s ty bt).1 reg bt (new_term s ty bt).2).map
          (fun s2 => now_rewrite clock (new_term s ty bt).1 s2) := rfl

theorem parse_internal_arr_num_two_eq (clock : Nat → Datum) (fuel : Nat)
    (ty : Int) (a1 a2 : JValue) (reg : Bool) (bt : Nat) (s : term_storage_t) :
    parse_internal clock (fuel + 1) (JValue.arr [JValue.num ty, a1, a2]) reg bt s =
      if ty = Term.DATUM then
        .error ⟨.GENERIC, "Expected 2 items in array", bt⟩
      else
        (add_args clock fuel a1 (new_term s ty bt).1 reg bt (new_term s ty bt).2).bind
          (fun s2 =>
            (add_optargs clock fuel a2 (new_term s ty bt).1 reg bt s2).map
              (fun s3 => now_rewrite clock (new_term s ty bt).1 s3)) := rfl

theorem parse_internal_arr_long_eq (clock : Nat → Datum) (fuel : Nat)
    (e0 a1 a2 a3 : JValue) (tail : List JValue) (reg : Bool) (bt : Nat)
    (s : term_storage_t) :
    parse_internal clock (fuel + 1) (JValue.arr (e0 :: a1 :: a2 :: a3 :: tail)) reg bt s =
      .error ⟨.GENERIC, "Expected an array of 1, 2, or 3 elements", bt⟩ := rfl

theorem parse_internal_arr_badhead_error (clock : Nat → Datum) (fuel : Nat)
    (e0 : JValue) (rest : List JValue) (reg : Bool) (bt : Nat) (s : term_storage_t)
    (h0 : ∀ n, ¬(e0 = JValue.num n)) :
    ∃ e, parse_internal clock (fuel + 1) (JValue.arr (e0 :: rest)) reg bt s =
      .error e := by
  cases rest with
  | nil =>
    cases e0 with
    | num n => exact absurd rfl (h0 n)
    | null => exact ⟨_, rfl⟩
    | bool b => exact ⟨_, rfl⟩
    | str s0 => exact ⟨_, rfl⟩
    | arr a => exact ⟨_, rfl⟩
    | obj o => exact ⟨_, rfl⟩
  | cons r1 rtail =>
    cases rtail with
    | nil =>
      cases e0 with
      | num n => exact absurd rfl (h0 n)
      | null => exact ⟨_, rfl⟩
      | bool b => exact ⟨_, rfl⟩
      | str s0 => exact ⟨_, rfl⟩
      | arr a => exact ⟨_, rfl⟩
      | obj o => exact ⟨_, rfl⟩
    | cons r2 rtail2 =>
      cases rtail2 with
      | nil =>
        cases e0 with
        | num n => exact absurd rfl (h0 n)
        | null => exact ⟨_, rfl⟩
        | bool b => exact ⟨_, rfl⟩
        | str s0 => exact ⟨_, rfl⟩
        | arr a => exact ⟨_, rfl⟩
        | obj o => exact ⟨_, rfl⟩
      | cons r3 rtail3 => exact ⟨_, parse_internal_arr_long_eq _ _ _ _ _ _ _ _ _ _⟩

theorem add_args_arr_eq (clock : Nat → Datum) (fuel : Nat) (xs : List JValue)
    (parent : Nat) (reg : Bool) (bt : Nat) (s : term_storage_t) :
    add_args clock (fuel + 1) (JValue.arr xs) parent reg bt s =
      add_args_loop clock fuel xs parent reg bt s := rfl

theorem add_args_bad_eq (clock : Nat → Datum) (fuel : Nat) (a : JValue)
    (parent : Nat) (reg : Bool) (bt : Nat) (s : term_storage_t)
    (h0 : ∀ xs, ¬(a = JValue.arr xs)) :
    add_args clock (fuel + 1) a parent reg bt s =
      .error ⟨.GENERIC, "Query parse error: expected ARRAY but found", bt⟩ := by
  cases a with
  | arr xs => exact absurd rfl (h0 xs)
  | null => rfl
  | bool b => rfl
  | num n => rfl
  | str s0 => rfl
  | obj o => rfl

theorem add_optargs_obj_eq (clock : Nat → Datum) (fuel : Nat)
    (ms : List (String × JValue)) (parent : Nat) (reg : Bool) (bt : Nat)
    (s : term_storage_t) :
    add_optargs clock (fuel + 1) (JValue.obj ms) parent reg bt s =
      add_optargs_loop clock fuel ms parent reg bt s := rfl

theorem add_optargs_bad_eq (clock : Nat → Datum) (fuel : Nat) (a : JValue)
    (parent : Nat) (reg : Bool) (bt : Nat) (s : term_storage_t)
    (h0 : ∀ ms, ¬(a = JValue.obj ms)) :
    add_optargs clock (fuel + 1) a parent reg bt s =
      .error ⟨.GENERIC, "Query parse error: expected OBJECT but found", bt⟩ := by
  cases a with
  | obj ms => exact absurd rfl (h0 ms)
  | null => rfl
  | bool b => rfl
  | num n => rfl
  | str s0 => rfl
  | arr xs => rfl

theorem add_args_loop_nil_eq (clock : Nat → Datum) (fuel : Nat) (parent : Nat)
    (reg : Bool) (bt : Nat) (s : term_storage_t) :
    add_args_loop clock (fuel + 1) [] parent reg bt s = .ok s := rfl

theorem add_args_loop_cons_eq (clock : Nat → Datum) (fuel : Nat) (x : JValue)
    (xs : List JValue) (parent : Nat) (reg : Bool) (bt : Nat)
    (s : term_storage_t) :
    add_args_loop clock (fuel + 1) (x :: xs) parent reg bt s =
      (parse_internal clock fuel x reg
          (if reg then new_frame s else ((0 : Nat), s)).1
          (if reg then new_frame s else ((0 : Nat), s)).2).bind
        (fun r => add_args_loop clock fuel xs parent reg bt
          (push_arg r.2 parent r.1)) := rfl

theorem add_optargs_loop_nil_eq (clock : Nat → Datum) (fuel : Nat)
    (parent : Nat) (reg : Bool) (bt : Nat) (s : term_storage_t) :
    add_optargs_loop clock (fuel + 1) [] parent reg bt s = .ok s := rfl

theorem add_optargs_loop_cons_eq (clock : Nat → Datum) (fuel : Nat)
    (k : String) (x : JValue) (ms : List (String × JValue)) (parent : Nat)
    (reg : Bool) (bt : Nat) (s : term_storage_t) :
    add_optargs_loop clock (fuel + 1) ((k, x) :: ms) parent reg bt s =
      (parse_internal clock fuel x reg
          (if reg then new_frame s else ((0 : Nat), s)).1
          (if reg then new_frame s else ((0 : Nat), s)).2).bind
        (fun r => add_optargs_loop clock fuel ms parent reg bt
          (modify_term (push_optarg r.2 parent r.1) r.1
            (fun tm => { tm with optarg_name := k }))) := rfl

theorem parse_step (clock : Nat → Datum) (fuel : Nat)
    (iha : ∀ a parent reg bt s s1, add_args clock fuel a parent reg bt s = .ok s1 →
      parent < s.terms.length → args_loop_ok_spec parent s s1)
    (iho : ∀ a parent reg bt s s1, add_optargs clock fuel a parent reg bt s = .ok s1 →
      parent < s.terms.length → ∃ keys, optargs_loop_ok_spec parent keys s s1)
    (ihol : ∀ ms parent reg bt s s1,
      add_optargs_loop clock fuel ms parent reg bt s = .ok s1 →
      parent < s.terms.length → optargs_loop_ok_spec parent (ms.map Prod.fst) s s1) :
    ∀ v reg bt s i s1, parse_internal clock (fuel + 1) v reg bt s = .ok (i, s1) →
      parse_ok_spec s i s1 := by
  intro v reg bt s i s1 h
  cases v with
  | null =>
    rw [parse_internal_null_eq] at h
    injection h with h
    injection h with h1 h2
    subst h1; subst h2
    exact scalar_leaf_spec s bt Term.DATUM _ (by decide)
  | bool b =>
    rw [parse_internal_bool_eq] at h
    injection h with h
    injection h with h1 h2
    subst h1; subst h2
    exact scalar_leaf_spec s bt Term.DATUM _ (by decide)
  | num n =>
    rw [parse_internal_num_eq] at h
    injection h with h
    injection h with h1 h2
    subst h1; subst h2
    exact scalar_leaf_spec s bt Term.DATUM _ (by decide)
  | str str =>
    rw [parse_internal_str_eq] at h
    injection h with h
    injection h with h1 h2
    subst h1; subst h2
    exact scalar_leaf_spec s bt Term.DATUM _ (by decide)
  | obj members =>
    rw [parse_internal_obj_eq] at h
    obtain ⟨s2, hloop, heq⟩ := except_map_ok h
    injection heq with heq1 heq2
    subst heq1; subst heq2
    have hlen := new_term_length s Term.MAKE_OBJ bt
    have hspec := ihol members s.terms.length reg bt _ s2 hloop (by omega)
    obtain ⟨hlenL, hpreL, ⟨new2, hparL, _, hboundL⟩, hstL, hnnL⟩ := hspec
    rw [hlen] at hlenL
    refine ⟨rfl, by omega, ?_,
      storage_stable_trans (new_term_stable s Term.MAKE_OBJ bt) hstL, ?_⟩
    · intro j hj
      rw [hpreL j (by omega) (by omega), new_term_getElem, if_neg (by omega)]
    · intro j t hj ht
      by_cases hji : j = s.terms.length
      · subst hji
        rw [hparL, new_term_getElem, if_pos rfl] at ht
        injection ht with ht
        subst ht
        refine ⟨rfl, fun hc => ?_⟩
        have hcc : Term.MAKE_OBJ = Term.NOW := hc.1
        exact absurd hcc (by decide)
      · have hj2 : (new_term s Term.MAKE_OBJ bt).2.terms.length ≤ j := by
          rw [hlen]; omega
        exact hnnL j t hj2 ht
  | arr elems =>
    cases elems with
    | nil =>
      rw [parse_internal_arr_nil_eq] at h
      exact Except.noConfusion h
    | cons e0 rest =>
      cases e0 with
      | num ty =>
        cases rest with
        | nil =>
          rw [parse_internal_arr_num_nil_eq] at h
          by_cases hty : ty = Term.DATUM
          · rw [if_pos hty] at h
            exact Except.noConfusion h
          · rw [if_neg hty] at h
            injection h with h
            rw [Prod.ext_iff] at h
            obtain ⟨hi, hs1⟩ := h
            dsimp only at hi hs1
            have hspec := parse_ok_of_pre_now clock (bare_node_pre_spec s ty bt)
            rw [(now_rewrite_spec clock _ _).1] at hi
            rw [← hi, ← hs1]
            exact hspec
        | cons a1 rtail =>
          cases rtail with
          | nil =>
            rw [parse_internal_arr_num_one_eq] at h
            by_cases hty : ty = Term.DATUM
            · rw [if_pos hty] at h
              injection h with h
              rw [Prod.ext_iff] at h
              obtain ⟨hi, hs1⟩ := h
              dsimp only at hi hs1
              have hspec := parse_ok_of_pre_now clock
                (parse_pre_of_ok (scalar_leaf_spec s bt ty (to_datum a1)
                  (by rw [hty]; decide)))
              rw [(now_rewrite_spec clock _ _).1] at hi
              rw [← hi, ← hs1]
              exact hspec
            · rw [if_neg hty] at h
              obtain ⟨s2, hargs, heq⟩ := except_map_ok h
              have hspec2 := iha a1 s.terms.length reg bt _ s2 hargs
                (by rw [new_term_length]; omega)
              rw [Prod.ext_iff] at heq
              obtain ⟨hi, hs1⟩ := heq
              dsimp only at hi hs1
              have hspec := parse_ok_of_pre_now clock (pre_spec_after_args hspec2)
              rw [(now_rewrite_spec clock _ _).1] at hi
              rw [← hi, ← hs1]
              exact hspec
          | cons a2 rtail2 =>
            cases rtail2 with
            | nil =>
              rw [parse_internal_arr_num_two_eq] at h
              by_cases hty : ty = Term.DATUM
              · rw [if_pos hty] at h
                exact Except.noConfusion h
              · rw [if_neg hty] at h
                obtain ⟨s2, hargs, h⟩ := except_bind_ok h
                obtain ⟨s3, hopt, heq⟩ := except_map_ok h
                have hspec2 := iha a1 s.terms.length reg bt _ s2 hargs
                  (by rw [new_term_length]; omega)
                have hpre2 := pre_spec_after_args hspec2
                obtain ⟨keys, hspec3⟩ := iho a2 s.terms.length reg bt s2 s3 hopt
                  (by
                    have hh := hpre2.2.1
                    omega)
                have hpre3 := pre_spec_after_optargs hpre2 hspec3
                rw [Prod.ext_iff] at heq
                obtain ⟨hi, hs1⟩ := heq
                dsimp only at hi hs1
                have hspec := parse_ok_of_pre_now clock hpre3
                rw [(now_rewrite_spec clock _ _).1] at hi
                rw [← hi, ← hs1]
                exact hspec
            | cons a3 rtail3 =>
              rw [parse_internal_arr_long_eq] at h
              exact Except.noConfusion h
      | null =>
        obtain ⟨e, he⟩ := parse_internal_arr_badhead_error clock fuel JValue.null rest reg bt s
          (fun n hn => nomatch hn)
        rw [he] at h
        exact Except.noConfusion h
      | bool b =>
        obtain ⟨e, he⟩ := parse_internal_arr_badhead_error clock fuel (JValue.bool b) rest reg bt s
          (fun n hn => nomatch hn)
        rw [he] at h
        exact Except.noConfusion h
      | str s0 =>
        obtain ⟨e, he⟩ := parse_internal_arr_badhead_error clock fuel (JValue.str s0) rest reg bt s
          (fun n hn => nomatch hn)
        rw [he] at h
        exact Except.noConfusion h
      | arr a =>
        obtain ⟨e, he⟩ := parse_internal_arr_badhead_error clock fuel (JValue.arr a) rest reg bt s
          (fun n hn => nomatch hn)
        rw [he] at h
        exact Except.noConfusion h
      | obj o =>
        obtain ⟨e, he⟩ := parse_internal_arr_badhead_error clock fuel (JValue.obj o) rest reg bt s
          (fun n hn => nomatch hn)
        rw [he] at h
        exact Except.noConfusion h

theorem parse_internal_zero_eq (clock : Nat → Datum) (v : JValue) (reg : Bool)
    (bt : Nat) (s : term_storage_t) :
    parse_internal clock 0 v reg bt s =
      .error ⟨.GENERIC, "recursion fuel exhausted", bt⟩ := by
  cases v <;> rfl

theorem add_args_zero_eq (clock : Nat → Datum) (a : JValue) (parent : Nat)
    (reg : Bool) (bt : Nat) (s : term_storage_t) :
    add_args clock 0 a parent reg bt s =
      .error ⟨.GENERIC, "recursion fuel exhausted", bt⟩ := by
  cases a <;> rfl

theorem add_args_loop_zero_eq (clock : Nat → Datum) (xs : List JValue)
    (parent : Nat) (reg : Bool) (bt : Nat) (s : term_storage_t) :
    add_args_loop clock 0 xs parent reg bt s =
      .error ⟨.GENERIC, "recursion fuel exhausted", bt⟩ := by
  cases xs <;> rfl

theorem add_optargs_zero_eq (clock : Nat → Datum) (a : JValue) (parent : Nat)
    (reg : Bool) (bt : Nat) (s : term_storage_t) :
    add_optargs clock 0 a parent reg bt s =
      .error ⟨.GENERIC, "recursion fuel exhausted", bt⟩ := by
  cases a <;> rfl

theorem add_optargs_loop_zero_eq (clock : Nat → Datum)
    (ms : List (String × JValue)) (parent : Nat) (reg : Bool) (bt : Nat)
    (s : term_storage_t) :
    add_optargs_loop clock 0 ms parent reg bt s =
      .error ⟨.GENERIC, "recursion fuel exhausted", bt⟩ := by
  cases ms with
  | nil => rfl
  | cons kx ms2 =>
    obtain ⟨k, x⟩ := kx
    rfl

/-- The combined behavioural description of one successful run of any of the
mutually recursive parsing functions, proved by induction on the fuel. -/
theorem parse_family_ok (clock : Nat → Datum) : ∀ fuel : Nat,
    (∀ v reg bt s i s1, parse_internal clock fuel v reg bt s = .ok (i, s1) →
      parse_ok_spec s i s1) ∧
    (∀ a parent reg bt s s1, add_args clock fuel a parent reg bt s = .ok s1 →
      parent < s.terms.length → args_loop_ok_spec parent s s1) ∧
    (∀ xs parent reg bt s s1, add_args_loop clock fuel xs parent reg bt s = .ok s1 →
      parent < s.terms.length → args_loop_ok_spec parent s s1) ∧
    (∀ a parent reg bt s s1, add_optargs clock fuel a parent reg bt s = .ok s1 →
      parent < s.terms.length → ∃ keys, optargs_loop_ok_spec parent keys s s1) ∧
    (∀ ms parent reg bt s s1, add_optargs_loop clock fuel ms parent reg bt s = .ok s1 →
      parent < s.terms.length → optargs_loop_ok_spec parent (ms.map Prod.fst) s s1) := by
  intro fuel
  induction fuel with
  | zero =>
    refine ⟨?_, ?_, ?_, ?_, ?_⟩
    · intro v reg bt s i s1 h
      rw [parse_internal_zero_eq] at h
      exact Except.noConfusion h
    · intro a parent reg bt s s1 h
      rw [add_args_zero_eq] at h
      exact Except.noConfusion h
    · intro xs parent reg bt s s1 h
      rw [add_args_loop_zero_eq] at h
      exact Except.noConfusion h
    · intro a parent reg bt s s1 h
      rw [add_optargs_zero_eq] at h
      exact Except.noConfusion h
    · intro ms parent reg bt s s1 h
      rw [add_optargs_loop_zero_eq] at h
      exact Except.noConfusion h
  | succ fuel ih =>
    obtain ⟨ihp, iha, ihal, iho, ihol⟩ := ih
    refine ⟨parse_step clock fuel iha iho ihol, ?_, args_loop_step clock fuel ihp ihal,
      ?_, optargs_loop_step clock fuel ihp ihol⟩
    · intro a parent reg bt s s1 h hpar
      cases a with
      | arr xs =>
        rw [add_args_arr_eq] at h
        exact ihal xs parent reg bt s s1 h hpar
      | null =>
        rw [add_args_bad_eq clock fuel JValue.null parent reg bt s
          (fun xs hx => nomatch hx)] at h
        exact Except.noConfusion h
      | bool b =>
        rw [add_args_bad_eq clock fuel (JValue.bool b) parent reg bt s
          (fun xs hx => nomatch hx)] at h
        exact Except.noConfusion h
      | num n =>
        rw [add_args_bad_eq clock fuel (JValue.num n) parent reg bt s
          (fun xs hx => nomatch hx)] at h
        exact Except.noConfusion h
      | str s0 =>
        rw [add_args_bad_eq clock fuel (JValue.str s0) parent reg bt s
          (fun xs hx => nomatch hx)] at h
        exact Except.noConfusion h
      | obj o =>
        rw [add_args_bad_eq clock fuel (JValue.obj o) parent reg bt s
          (fun xs hx => nomatch hx)] at h
        exact Except.noConfusion h
    · intro a parent reg bt s s1 h hpar
      cases a with
      | obj ms =>
        rw [add_optargs_obj_eq] at h
        exact ⟨ms.map Prod.fst, ihol ms parent reg bt s s1 h hpar⟩
      | null =>
        rw [add_optargs_bad_eq clock fuel JValue.null parent reg bt s
          (fun ms hx => nomatch hx)] at h
        exact Except.noConfusion h
      | bool b =>
        rw [add_optargs_bad_eq clock fuel (JValue.bool b) parent reg bt s
          (fun ms hx => nomatch hx)] at h
        exact Except.noConfusion h
      | num n =>
        rw [add_optargs_bad_eq clock fuel (JValue.num n) parent reg bt s
          (fun ms hx => nomatch hx)] at h
        exact Except.noConfusion h
      | str s0 =>
        rw [add_optargs_bad_eq clock fuel (JValue.str s0) parent reg bt s
          (fun ms hx => nomatch hx)] at h
        exact Except.noConfusion h
      | arr xs =>
        rw [add_optargs_bad_eq clock fuel (JValue.arr xs) parent reg bt s
          (fun ms hx => nomatch hx)] at h
        exact Except.noConfusion h

/-! ### Mini-builder (`minidriver_t`) and `add_global_optargs` -/

/-- Modelled from the spec: `minidriver_t::expr` (rdb_protocol/minidriver.hpp
is not part of the visible slice). The mini-builder wraps an existing term of
the same storage as a reference (spec §1: terms that are references into
other terms are synthesized by the internal mini-builder); the reference is
created with `term_storage_t::new_ref` from the visible source. -/
def minidriver_expr (s : term_storage_t) (t : Nat) : Nat × term_storage_t :=
  new_ref s t

/-- Modelled from the spec: `minidriver_t::fun_` produces a nullary function
wrapping `body` (spec §4.3): a `FUNC` apply term whose child is the body,
built with the empty backtrace id. -/
def minidriver_fun (s : term_storage_t) (body : Nat) : Nat × term_storage_t :=
  let p := new_term s Term.FUNC 0
  (p.1, modify_term p.2 p.1 (fun t => { t with args_ := [body] }))

/-- Modelled from the spec: `minidriver_t::db(name)` produces a `DB(name)`
call (spec §4.3): a `DB` apply term whose single argument is the datum
`name`, built with the empty backtrace id. -/
def minidriver_db (s : term_storage_t) (name : String) : Nat × term_storage_t :=
  let pd := new_term s Term.DATUM 0
  let s1 := modify_term pd.2 pd.1 (fun t => { t with value := .str name })
  let pf := new_term s1 Term.DB 0
  (pf.1, modify_term pf.2 pf.1 (fun t => { t with args_ := [pd.1] }))

/-- The member loop of `term_storage_t::add_global_optargs`: notes whether a
`db` key was seen, parses each member's value with no backtrace registry and
the empty backtrace id, wraps it as `fun(expr(value))`, appends the wrapper
to the global optarg list and stores the key as its `optarg_name`. -/
def add_global_optargs_loop (clock : Nat → Datum) :
    List (String × JValue) → Bool → term_storage_t →
    Except exc_t (Bool × term_storage_t)
  | [], has_db, s => .ok (has_db, s)
  | (k, v) :: ms, has_db, s =>
    let has_db2 := has_db || (k == "db")
    (parse_internal_run clock v false 0 s).bind (fun r =>
      let pe := minidriver_expr r.2 r.1
      let pf := minidriver_fun pe.2 pe.1
      let s4 := { pf.2 with global_optarg_list := pf.2.global_optarg_list ++ [pf.1] }
      let s5 := modify_term s4 pf.1 (fun tm => { tm with optarg_name := k })
      add_global_optargs_loop clock ms has_db2 s5)

/-- The trailing branch of `add_global_optargs`: when no member had the key
`db`, append a default `fun(db("test"))` global optarg named `db`. -/
def add_db_default (s : term_storage_t) : term_storage_t :=
  let pd := minidriver_db s "test"
  let pf := minidriver_fun pd.2 pd.1
  let s4 := { pf.2 with global_optarg_list := pf.2.global_optarg_list ++ [pf.1] }
  modify_term s4 pf.1 (fun tm => { tm with optarg_name := "db" })

/-- `term_storage_t::add_global_optargs(optargs)`: checks the optargs value
is an object, runs the member loop, and when no member had the key `db`
appends a default `fun(db("test"))` global optarg named `db`. -/
def add_global_optargs (clock : Nat → Datum) (optargs : JValue)
    (s : term_storage_t) : Except exc_t term_storage_t :=
  match optargs with
  | .obj ms =>
    (add_global_optargs_loop clock ms false s).map (fun r =>
      if r.1 then r.2 else add_db_default r.2)
  | _ => .error ⟨.GENERIC, "Query parse error: expected OBJECT but found", 0⟩

theorem add_global_optargs_obj_unfold (clock : Nat → Datum)
    (ms : List (String × JValue)) (s : term_storage_t) :
    add_global_optargs clock (.obj ms) s =
      (add_global_optargs_loop clock ms false s).map (fun r =>
        if r.1 then r.2 else add_db_default r.2) := rfl

theorem add_global_optargs_bad_eq (clock : Nat → Datum) (v : JValue)
    (s : term_storage_t) (h0 : ∀ ms, ¬(v = JValue.obj ms)) :
    add_global_optargs clock v s =
      .error ⟨.GENERIC, "Query parse error: expected OBJECT but found", 0⟩ := by
  cases v with
  | obj ms => exact absurd rfl (h0 ms)
  | null => rfl
  | bool b => rfl
  | num n => rfl
  | str s0 => rfl
  | arr a => rfl

/-! ### The no-Reference-to-Reference invariant (claim C3) -/

/-- Every `REFERENCE` node's target, when it has one, is not itself a
`REFERENCE` (spec invariant 1). Stated over the arena; executable so that it
can be checked on concrete storages. -/
def ref_inv (s : term_storage_t) : Prop :=
  ∀ (i : Nat) (t : raw_term_t) (j : Nat),
    s.terms[i]? = some t → t.type = REFERENCE → t.src = some j →
    ∃ u, s.terms[j]? = some u ∧ ¬(u.type = REFERENCE)

/-- One mutating operation on a term storage, covering both the raw
constructors and whole parsing passes. -/
inductive storage_op where
  | op_new_term (ty : Int) (bt : Nat) : storage_op
  | op_new_ref (src : Nat) : storage_op
  | op_parse (v : JValue) (reg : Bool) (bt : Nat) : storage_op
  | op_add_global_optargs (v : JValue) : storage_op
  | op_get_time : storage_op

/-- Apply one operation. A parse or optarg pass that throws unwinds out of
the query constructor; the `Except` embedding does not expose the partially
extended arena, so the state before the call is kept (the discarded partial
nodes are built by the same `new_term` steps and satisfy the invariant as
well). -/
def storage_step (clock : Nat → Datum) (s : term_storage_t) :
    storage_op → term_storage_t
  | .op_new_term ty bt => (new_term s ty bt).2
  | .op_new_ref src => (new_ref s src).2
  | .op_parse v reg bt =>
    match parse_internal_run clock v reg bt s with
    | .ok r => r.2
    | .error _ => s
  | .op_add_global_optargs v =>
    match add_global_optargs clock v s with
    | .ok s2 => s2
    | .error _ => s
  | .op_get_time => (get_time clock s).2

/-- Run a sequence of storage operations. -/
def storage_run (clock : Nat → Datum) (s : term_storage_t) :
    List storage_op → term_storage_t
  | [] => s
  | op :: ops => storage_run clock (storage_step clock s op) ops

theorem ref_inv_new_term {s : term_storage_t} (h : ref_inv s) (ty : Int) (bt : Nat) :
    ref_inv (new_term s ty bt).2 := by
  unfold ref_inv
  intro i t j hi htype hsrc
  rw [new_term_getElem] at hi
  by_cases hil : i = s.terms.length
  · rw [if_pos hil] at hi
    injection hi with hi
    subst hi
    exact Option.noConfusion hsrc
  · rw [if_neg hil] at hi
    obtain ⟨u, hu, hunr⟩ := h i t j hi htype hsrc
    refine ⟨u, ?_, hunr⟩
    have hj : j < s.terms.length := by
      by_contra hge
      rw [List.getElem?_eq_none (by omega)] at hu
      exact Option.noConfusion hu
    rw [new_term_getElem, if_neg (by omega)]
    exact hu

theorem ref_inv_new_ref {s : term_storage_t} (h : ref_inv s) (src : Nat) :
    ref_inv (new_ref s src).2 := by
  unfold new_ref ref_inv
  cases hsrc : s.terms[src]? with
  | none => exact h
  | some srcTerm =>
    dsimp only
    intro i t j hi htype hsrcT
    have hget : ∀ jj, (s.terms ++
        [({ type := REFERENCE, bt := srcTerm.bt,
            src := (if srcTerm.type = REFERENCE then srcTerm.src else some src) } :
          raw_term_t)])[jj]? =
        if jj = s.terms.length then
          some ({ type := REFERENCE, bt := srcTerm.bt,
                  src := (if srcTerm.type = REFERENCE then srcTerm.src
                          else some src) } : raw_term_t)
        else s.terms[jj]? := by
      intro jj
      by_cases hj : jj = s.terms.length
      · subst hj
        rw [if_pos rfl]
        exact List.getElem?_concat_length _ _
      · rw [if_neg hj, List.getElem?_append]
        by_cases hlt : jj < s.terms.length
        · rw [if_pos hlt]
        · rw [if_neg hlt, List.getElem?_eq_none (by simp; omega),
            List.getElem?_eq_none (by omega)]
    rw [hget] at hi
    have htarget : ∀ u, s.terms[j]? = some u → ¬(u.type = REFERENCE) →
        ∃ w, (s.terms ++
          [({ type := REFERENCE, bt := srcTerm.bt,
              src := (if srcTerm.type = REFERENCE then srcTerm.src else some src) } :
            raw_term_t)])[j]? = some w ∧ ¬(w.type = REFERENCE) := by
      intro u hu hnr
      have hj : j < s.terms.length := by
        by_contra hge
        rw [List.getElem?_eq_none (by omega)] at hu
        exact Option.noConfusion hu
      refine ⟨u, ?_, hnr⟩
      rw [hget, if_neg (by omega)]
      exact hu
    by_cases hil : i = s.terms.length
    · rw [if_pos hil] at hi
      injection hi with hi
      subst hi
      dsimp only at hsrcT
      by_cases hsr : srcTerm.type = REFERENCE
      · rw [if_pos hsr] at hsrcT
        obtain ⟨u, hu, hnr⟩ := h src srcTerm j hsrc hsr hsrcT
        exact htarget u hu hnr
      · rw [if_neg hsr] at hsrcT
        injection hsrcT with hsrcT
        subst hsrcT
        exact htarget srcTerm hsrc hsr
    · rw [if_neg hil] at hi
      obtain ⟨u, hu, hnr⟩ := h i t j hi htype hsrcT
      exact htarget u hu hnr

theorem ref_inv_of_parse_spec {s s1 : term_storage_t} {i : Nat}
    (hspec : parse_ok_spec s i s1) (h : ref_inv s) : ref_inv s1 := by
  obtain ⟨-, hlen, hpre, -, hnn⟩ := hspec
  unfold ref_inv
  intro i0 t j hi0 htype hsrc
  by_cases hil : i0 < s.terms.length
  · rw [hpre i0 hil] at hi0
    obtain ⟨u, hu, hnr⟩ := h i0 t j hi0 htype hsrc
    have hj : j < s.terms.length := by
      by_contra hge
      rw [List.getElem?_eq_none (by omega)] at hu
      exact Option.noConfusion hu
    refine ⟨u, ?_, hnr⟩
    rw [hpre j hj]
    exact hu
  · have := (hnn i0 t (by omega) hi0).1
    rw [this] at hsrc
    exact Option.noConfusion hsrc

theorem ref_inv_congr {s1 s2 : term_storage_t} (hterms : s2.terms = s1.terms)
    (h : ref_inv s1) : ref_inv s2 := by
  unfold ref_inv
  rw [hterms]
  exact h

theorem ref_inv_set_global (s : term_storage_t) (g : List Nat) (h : ref_inv s) :
    ref_inv { s with global_optarg_list := g } := h

theorem ref_inv_modify {s : term_storage_t} (h : ref_inv s) (i : Nat)
    (f : raw_term_t → raw_term_t)
    (hf : ∀ t, ((f t).type = REFERENCE ↔ t.type = REFERENCE) ∧ (f t).src = t.src) :
    ref_inv (modify_term s i f) := by
  unfold ref_inv
  intro i0 t j hi0 htype hsrc
  have htarget : ∀ u, s.terms[j]? = some u → ¬(u.type = REFERENCE) →
      ∃ w, (modify_term s i f).terms[j]? = some w ∧ ¬(w.type = REFERENCE) := by
    intro u hu hnr
    rw [modify_term_getElem]
    by_cases hji : j = i
    · subst hji
      rw [if_pos rfl, hu]
      exact ⟨f u, rfl, fun hw => hnr ((hf u).1.mp hw)⟩
    · rw [if_neg hji]
      exact ⟨u, hu, hnr⟩
  rw [modify_term_getElem] at hi0
  by_cases hii : i0 = i
  · rw [if_pos hii] at hi0
    cases hs : s.terms[i]? with
    | none =>
      rw [hs] at hi0
      exact Option.noConfusion hi0
    | some t0 =>
      rw [hs] at hi0
      injection hi0 with hi0
      subst hi0
      have htype0 : t0.type = REFERENCE := (hf t0).1.mp htype
      have hsrc0 : t0.src = some j := by rw [← (hf t0).2]; exact hsrc
      obtain ⟨u, hu, hnr⟩ := h i t0 j hs htype0 hsrc0
      exact htarget u hu hnr
  · rw [if_neg hii] at hi0
    obtain ⟨u, hu, hnr⟩ := h i0 t j hi0 htype hsrc
    exact htarget u hu hnr

set_option maxHeartbeats 1000000 in
theorem ref_inv_global_loop (clock : Nat → Datum) :
    ∀ (ms : List (String × JValue)) (has_db : Bool) (s : term_storage_t)
      (b : Bool) (s1 : term_storage_t),
      add_global_optargs_loop clock ms has_db s = .ok (b, s1) →
      ref_inv s → ref_inv s1 := by
  intro ms
  induction ms with
  | nil =>
    intro has_db s b s1 h hinv
    simp only [add_global_optargs_loop] at h
    injection h with h
    injection h with h1 h2
    subst h2
    exact hinv
  | cons kv ms ih =>
    obtain ⟨k, v⟩ := kv
    intro has_db s b s1 h hinv
    simp only [add_global_optargs_loop] at h
    obtain ⟨r, hp, h⟩ := except_bind_ok h
    obtain ⟨i0, s0⟩ := r
    dsimp only at h
    have hinv0 : ref_inv s0 :=
      ref_inv_of_parse_spec ((parse_family_ok clock (jsize v)).1 v false 0 s i0 s0 hp)
        hinv
    have hinv1 : ref_inv (minidriver_expr s0 i0).2 := ref_inv_new_ref hinv0 i0
    have hinv2 : ref_inv (minidriver_fun (minidriver_expr s0 i0).2
        (minidriver_expr s0 i0).1).2 := by
      unfold minidriver_fun
      exact ref_inv_modify (ref_inv_new_term hinv1 Term.FUNC 0) _ _
        (fun t => ⟨Iff.rfl, rfl⟩)
    refine ih (has_db || (k == "db")) _ b s1 h ?_
    exact ref_inv_modify (ref_inv_set_global _ _ hinv2) _ _
      (fun t => ⟨Iff.rfl, rfl⟩)

set_option maxHeartbeats 1000000 in
theorem ref_inv_add_db_default {s : term_storage_t} (hinv : ref_inv s) :
    ref_inv (add_db_default s) := by
  have hdb : ref_inv (minidriver_db s "test").2 := by
    unfold minidriver_db
    dsimp only
    refine ref_inv_modify (ref_inv_new_term ?_ Term.DB 0) _ _
      (fun t => ⟨Iff.rfl, rfl⟩)
    exact ref_inv_modify (ref_inv_new_term hinv Term.DATUM 0) _ _
      (fun t => ⟨Iff.rfl, rfl⟩)
  have hfun : ref_inv (minidriver_fun (minidriver_db s "test").2
      (minidriver_db s "test").1).2 := by
    unfold minidriver_fun
    exact ref_inv_modify (ref_inv_new_term hdb Term.FUNC 0) _ _
      (fun t => ⟨Iff.rfl, rfl⟩)
  unfold add_db_default
  exact ref_inv_modify (ref_inv_set_global _ _ hfun) _ _ (fun t => ⟨Iff.rfl, rfl⟩)

theorem ref_inv_add_global (clock : Nat → Datum) (v : JValue)
    (s s1 : term_storage_t) (h : add_global_optargs clock v s = .ok s1)
    (hinv : ref_inv s) : ref_inv s1 := by
  cases v with
  | obj ms =>
    rw [add_global_optargs_obj_unfold] at h
    obtain ⟨r, hloop, heq⟩ := except_map_ok h
    obtain ⟨b, s0⟩ := r
    dsimp only at heq
    have hinv0 : ref_inv s0 := ref_inv_global_loop clock ms false s b s0 hloop hinv
    cases b with
    | true =>
      rw [if_pos rfl] at heq
      rw [← heq]
      exact hinv0
    | false =>
      rw [if_neg (by simp)] at heq
      rw [← heq]
      exact ref_inv_add_db_default hinv0
  | null =>
    rw [add_global_optargs_bad_eq clock JValue.null s (fun ms hx => nomatch hx)] at h
    exact Except.noConfusion h
  | bool b =>
    rw [add_global_optargs_bad_eq clock (JValue.bool b) s (fun ms hx => nomatch hx)] at h
    exact Except.noConfusion h
  | num n =>
    rw [add_global_optargs_bad_eq clock (JValue.num n) s (fun ms hx => nomatch hx)] at h
    exact Except.noConfusion h
  | str s0 =>
    rw [add_global_optargs_bad_eq clock (JValue.str s0) s (fun ms hx => nomatch hx)] at h
    exact Except.noConfusion h
  | arr a =>
    rw [add_global_optargs_bad_eq clock (JValue.arr a) s (fun ms hx => nomatch hx)] at h
    exact Except.noConfusion h

theorem ref_inv_step (clock : Nat → Datum) (s : term_storage_t) (op : storage_op)
    (h : ref_inv s) : ref_inv (storage_step clock s op) := by
  cases op with
  | op_new_term ty bt => exact ref_inv_new_term h ty bt
  | op_new_ref src => exact ref_inv_new_ref h src
  | op_parse v reg bt =>
    simp only [storage_step]
    cases hp : parse_internal_run clock v reg bt s with
    | error e => exact h
    | ok r =>
      exact ref_inv_of_parse_spec
        ((parse_family_ok clock (jsize v)).1 v reg bt s r.1 r.2
          (by rw [← hp]; rfl)) h
  | op_add_global_optargs v =>
    simp only [storage_step]
    cases hg : add_global_optargs clock v s with
    | error e => exact h
    | ok s2 => exact ref_inv_add_global clock v s s2 hg h
  | op_get_time =>
    exact ref_inv_congr (get_time_terms clock s) h

/-- C3: no `REFERENCE` term's target is itself a `REFERENCE`: `new_ref`
collapses a one-hop indirection eagerly at construction time (taking the
argument's own target when the argument is a reference), and the invariant
holds for every term reachable after any sequence of parsing and
construction operations on the storage. -/
theorem claim_C3 (clock : Nat → Datum) (s : term_storage_t)
    (ops : List storage_op) (h : ref_inv s) :
    ref_inv (storage_run clock s ops) := by
  induction ops generalizing s with
  | nil => exact h
  | cons op ops ih => exact ih _ (ref_inv_step clock s op h)

theorem claim_C3_witness :
    ref_inv (storage_run (fun _ => Datum.null) {}
      [storage_op.op_new_term Term.DB 0, storage_op.op_new_ref 0,
       storage_op.op_new_ref 1, storage_op.op_parse (.arr [.num 103]) true 0]) :=
  claim_C3 (fun _ => Datum.null) {} _
    (fun i t j hi _ _ => absurd hi (by simp [term_storage_t.terms]))

/-! ### Case behaviour of `parse_internal` (claim C5) -/

theorem jsize_arr (xs : List JValue) :
    jsize (JValue.arr xs) = jsize_list xs + 1 :=
  Nat.add_comm 1 (jsize_list xs)

theorem jsize_obj (ms : List (String × JValue)) :
    jsize (JValue.obj ms) = jsize_members ms + 1 :=
  Nat.add_comm 1 (jsize_members ms)

theorem parse_run_arr_eq (clock : Nat → Datum) (xs : List JValue) (reg : Bool)
    (bt : Nat) (s : term_storage_t) :
    parse_internal_run clock (JValue.arr xs) reg bt s =
      parse_internal clock (jsize_list xs + 1) (JValue.arr xs) reg bt s := by
  unfold parse_internal_run
  rw [jsize_arr]

theorem parse_run_obj_eq (clock : Nat → Datum) (ms : List (String × JValue))
    (reg : Bool) (bt : Nat) (s : term_storage_t) :
    parse_internal_run clock (JValue.obj ms) reg bt s =
      parse_internal clock (jsize_members ms + 1) (JValue.obj ms) reg bt s := by
  unfold parse_internal_run
  rw [jsize_obj]

/-- The expected-NUMBER branch with the error spelled out: possible once the
array is known to be short enough to get past the size check. -/
theorem parse_internal_arr_badhead_eq (clock : Nat → Datum) (fuel : Nat)
    (e0 : JValue) (rest : List JValue) (reg : Bool) (bt : Nat)
    (s : term_storage_t) (h0 : ∀ n, ¬(e0 = JValue.num n))
    (hlen : rest.length ≤ 2) :
    parse_internal clock (fuel + 1) (JValue.arr (e0 :: rest)) reg bt s =
      .error ⟨.GENERIC, "Query parse error: expected NUMBER but found", bt⟩ := by
  cases rest with
  | nil =>
    cases e0 with
    | num n => exact absurd rfl (h0 n)
    | null => rfl
    | bool b => rfl
    | str s0 => rfl
    | arr a => rfl
    | obj o => rfl
  | cons r1 rt =>
    cases rt with
    | nil =>
      cases e0 with
      | num n => exact absurd rfl (h0 n)
      | null => rfl
      | bool b => rfl
      | str s0 => rfl
      | arr a => rfl
      | obj o => rfl
    | cons r2 rt2 =>
      cases rt2 with
      | nil =>
        cases e0 with
        | num n => exact absurd rfl (h0 n)
        | null => rfl
        | bool b => rfl
        | str s0 => rfl
        | arr a => rfl
        | obj o => rfl
      | cons r3 rt3 =>
        exact absurd hlen (by simp only [List.length_cons]; omega)

/-- `now_rewrite` is the identity on a node that is not a `NOW` call. -/
theorem now_rewrite_id (clock : Nat → Datum) (i : Nat) (st : term_storage_t)
    (t : raw_term_t) (h : st.terms[i]? = some t) (hty : ¬(t.type = Term.NOW)) :
    now_rewrite clock i st = (i, st) := by
  unfold now_rewrite
  rw [h]
  dsimp only
  rw [if_neg (fun hc => hty hc.1)]

/-- The node a fresh datum leaf ends up holding. -/
theorem leaf_state_getElem (s : term_storage_t) (ty : Int) (bt : Nat)
    (d : Datum) :
    (modify_term (new_term s ty bt).2 s.terms.length
      (fun t => { t with value := d })).terms[s.terms.length]? =
      some { type := ty, bt := bt, value := d } := by
  rw [modify_term_getElem, if_pos rfl, new_term_getElem, if_pos rfl]
  rfl

/-- C5: case behaviour of `parse_internal`: an array of 0 or more than 3
elements is a `GENERIC` error carrying the backtrace id, as is an array whose
element 0 is not a number; a `DATUM` array must have exactly 2 elements, and
then produces a leaf holding element 1 converted to a datum; a JSON object
produces a `MAKE_OBJ` term whose optargs are the object's members, named by
the member keys in order; any other JSON value is wrapped as a `DATUM`
term. -/
theorem claim_C5 (clock : Nat → Datum) (reg : Bool) (bt : Nat)
    (s : term_storage_t) :
    (∀ elems, elems = [] ∨ 3 < elems.length →
      ∃ e, parse_internal_run clock (JValue.arr elems) reg bt s = .error e ∧
        e.kind = .GENERIC ∧ e.bt = bt) ∧
    (∀ e0 rest, rest.length ≤ 2 → (∀ n, ¬(e0 = JValue.num n)) →
      ∃ e, parse_internal_run clock (JValue.arr (e0 :: rest)) reg bt s =
        .error e ∧ e.kind = .GENERIC ∧ e.bt = bt) ∧
    (∀ rest, rest.length ≤ 2 → ¬(rest.length = 1) →
      ∃ e, parse_internal_run clock
          (JValue.arr (JValue.num Term.DATUM :: rest)) reg bt s = .error e ∧
        e.kind = .GENERIC ∧ e.bt = bt) ∧
    (∀ x, ∃ s1, parse_internal_run clock
        (JValue.arr [JValue.num Term.DATUM, x]) reg bt s =
        .ok (s.terms.length, s1) ∧
      s1.terms[s.terms.length]? =
        some { type := Term.DATUM, bt := bt, value := to_datum x }) ∧
    (∀ ms i s1, parse_internal_run clock (JValue.obj ms) reg bt s =
        .ok (i, s1) →
      i = s.terms.length ∧
      ∃ t new, s1.terms[i]? = some t ∧ t.type = Term.MAKE_OBJ ∧ t.bt = bt ∧
        t.args_ = [] ∧ t.optargs_ = new ∧
        new.map (fun m => (s1.terms[m]?).map raw_term_t.optarg_name) =
          (ms.map Prod.fst).map some) ∧
    (∀ v, (∀ elems, ¬(v = JValue.arr elems)) →
        (∀ ms, ¬(v = JValue.obj ms)) →
      parse_internal_run clock v reg bt s =
        .ok (s.terms.length,
          modify_term (new_term s Term.DATUM bt).2 s.terms.length
            (fun t => { t with value := to_datum v }))) := by
  refine ⟨?_, ?_, ?_, ?_, ?_, ?_⟩
  · intro elems hlen
    rw [parse_run_arr_eq]
    cases elems with
    | nil => exact ⟨_, parse_internal_arr_nil_eq clock _ reg bt s, rfl, rfl⟩
    | cons a rest =>
      have h4 : 3 < (a :: rest).length := by
        rcases hlen with h | h
        · exact absurd h (by simp)
        · exact h
      cases rest with
      | nil => exact absurd h4 (by simp)
      | cons b rest2 =>
        cases rest2 with
        | nil => exact absurd h4 (by simp)
        | cons c rest3 =>
          cases rest3 with
          | nil => exact absurd h4 (by simp)
          | cons e rest4 =>
            exact ⟨_, parse_internal_arr_long_eq clock _ a b c e rest4 reg bt s,
              rfl, rfl⟩
  · intro e0 rest hlen h0
    rw [parse_run_arr_eq]
    exact ⟨_, parse_internal_arr_badhead_eq clock _ e0 rest reg bt s h0 hlen,
      rfl, rfl⟩
  · intro rest hle hne
    rw [parse_run_arr_eq]
    cases rest with
    | nil =>
      rw [parse_internal_arr_num_nil_eq, if_pos rfl]
      exact ⟨_, rfl, rfl, rfl⟩
    | cons a rest2 =>
      cases rest2 with
      | nil => exact absurd rfl hne
      | cons b rest3 =>
        cases rest3 with
        | nil =>
          rw [parse_internal_arr_num_two_eq, if_pos rfl]
          exact ⟨_, rfl, rfl, rfl⟩
        | cons c rest4 =>
          exact absurd hle (by simp only [List.length_cons]; omega)
  · intro x
    refine ⟨modify_term (new_term s Term.DATUM bt).2 s.terms.length
      (fun t => { t with value := to_datum x }), ?_,
      leaf_state_getElem s Term.DATUM bt (to_datum x)⟩
    rw [parse_run_arr_eq, parse_internal_arr_num_one_eq, if_pos rfl,
      show (new_term s Term.DATUM bt).1 = s.terms.length from rfl,
      now_rewrite_id clock s.terms.length _ _
        (leaf_state_getElem s Term.DATUM bt (to_datum x))
        (fun hc => absurd (show Term.DATUM = Term.NOW from hc) (by decide))]
  · intro ms i s1 h
    rw [parse_run_obj_eq, parse_internal_obj_eq] at h
    obtain ⟨s2, hloop, hmap⟩ := except_map_ok h
    injection hmap with h1 h2
    subst h2
    subst h1
    have hspec := (parse_family_ok clock (jsize_members ms)).2.2.2.2 ms
      (new_term s Term.MAKE_OBJ bt).1 reg bt (new_term s Term.MAKE_OBJ bt).2 s2
      hloop (by rw [new_term_length]; exact Nat.lt_succ_self s.terms.length)
    obtain ⟨hlenL, hpreL, ⟨new, hpar, hnames, hbound⟩, hstL, hnnL⟩ := hspec
    have hpar2 : s2.terms[(new_term s Term.MAKE_OBJ bt).1]? =
        some { type := Term.MAKE_OBJ, bt := bt, optargs_ := new } := by
      rw [hpar, new_term_getElem,
        if_pos (show (new_term s Term.MAKE_OBJ bt).1 = s.terms.length from rfl)]
      rfl
    exact ⟨rfl, { type := Term.MAKE_OBJ, bt := bt, optargs_ := new }, new,
      hpar2, rfl, rfl, rfl, rfl, hnames⟩
  · intro v harr hobj
    cases v with
    | null => exact parse_internal_null_eq clock 0 reg bt s
    | bool b => exact parse_internal_bool_eq clock 0 b reg bt s
    | num n => exact parse_internal_num_eq clock 0 n reg bt s
    | str s0 => exact parse_internal_str_eq clock 0 s0 reg bt s
    | arr a => exact absurd rfl (harr a)
    | obj o => exact absurd rfl (hobj o)

theorem claim_C5_witness :
    ∃ e, parse_internal_run (fun _ => Datum.null) (JValue.arr []) true 0
      ({} : term_storage_t) = .error e ∧ e.kind = .GENERIC ∧ e.bt = 0 :=
  (claim_C5 (fun _ => Datum.null) true 0 {}).1 [] (Or.inl rfl)

/-! ### Query-wide `now()` folding (claim C6) -/

/-- No node of the arena is a nullary call to `NOW`. -/
def no_nullary_now (s : term_storage_t) : Prop :=
  ∀ (j : Nat) (t : raw_term_t), s.terms[j]? = some t →
    ¬(t.type = Term.NOW ∧ t.args_ = [] ∧ t.optargs_ = [])

/-- The storage `parse_internal` leaves behind after parsing the array
`[NOW]` from state `sf`: a fresh node, rewritten in place to a `DATUM`
carrying `get_time()`. -/
def now_leaf_state (clock : Nat → Datum) (cbt : Nat) (sf : term_storage_t) :
    term_storage_t :=
  modify_term (get_time clock (new_term sf Term.NOW cbt).2).2 sf.terms.length
    (fun tm =>
      { tm with type := Term.DATUM,
                value := (get_time clock (new_term sf Term.NOW cbt).2).1 })

/-- Parsing the array `[NOW]` succeeds at any sufficient fuel and folds the
nullary `NOW` call to a `DATUM` leaf on the spot. -/
theorem parse_now_leaf (clock : Nat → Datum) (fuel : Nat) (hfuel : 2 ≤ fuel)
    (reg : Bool) (bt : Nat) (s : term_storage_t) :
    parse_internal clock fuel (JValue.arr [JValue.num Term.NOW]) reg bt s =
      .ok (s.terms.length, now_leaf_state clock bt s) := by
  obtain ⟨f, rfl⟩ : ∃ f, fuel = f + 1 := ⟨fuel - 1, by omega⟩
  rw [parse_internal_arr_num_nil_eq, if_neg (by decide)]
  congr 1
  have hget : (new_term s Term.NOW bt).2.terms[(new_term s Term.NOW bt).1]? =
      some { type := Term.NOW, bt := bt } := by
    rw [new_term_getElem,
      if_pos (show (new_term s Term.NOW bt).1 = s.terms.length from rfl)]
  unfold now_rewrite
  rw [hget]
  dsimp only
  rw [if_pos ⟨rfl, rfl, rfl⟩]
  rfl

theorem now_leaf_state_facts (clock : Nat → Datum) (cbt : Nat)
    (sf : term_storage_t) :
    (now_leaf_state clock cbt sf).terms.length = sf.terms.length + 1 ∧
    (∀ j, j < sf.terms.length →
      (now_leaf_state clock cbt sf).terms[j]? = sf.terms[j]?) ∧
    (now_leaf_state clock cbt sf).terms[sf.terms.length]? =
      some { type := Term.DATUM, bt := cbt,
             value := (get_time clock (new_term sf Term.NOW cbt).2).1 } ∧
    (now_leaf_state clock cbt sf).start_time =
      some (get_time clock (new_term sf Term.NOW cbt).2).1 ∧
    (now_leaf_state clock cbt sf).global_optarg_list = sf.global_optarg_list ∧
    (∀ d0, sf.start_time = some d0 →
      (get_time clock (new_term sf Term.NOW cbt).2).1 = d0) := by
  refine ⟨?_, ?_, ?_, ?_, ?_, ?_⟩
  · unfold now_leaf_state
    rw [modify_term_length]
    have ht := get_time_terms clock (new_term sf Term.NOW cbt).2
    rw [ht, new_term_length]
  · intro j hj
    unfold now_leaf_state
    rw [modify_term_getElem, if_neg (by omega)]
    have ht := get_time_terms clock (new_term sf Term.NOW cbt).2
    rw [ht, new_term_getElem, if_neg (by omega)]
  · unfold now_leaf_state
    rw [modify_term_getElem,
      if_pos (show sf.terms.length = sf.terms.length from rfl)]
    have ht := get_time_terms clock (new_term sf Term.NOW cbt).2
    rw [ht, new_term_getElem,
      if_pos (show sf.terms.length = sf.terms.length from rfl)]
    rfl
  · unfold now_leaf_state
    rw [modify_term_start]
    exact get_time_caches clock (new_term sf Term.NOW cbt).2
  · unfold now_leaf_state
    rw [modify_term_global, get_time_global]
    rfl
  · intro d0 h0
    rw [get_time_of_some clock (new_term sf Term.NOW cbt).2 d0
      (show (new_term sf Term.NOW cbt).2.start_time = some d0 from h0)]

/-- One pass of the `add_args` loop over a `[NOW]` child: the child is folded
to a `DATUM` leaf, appended to the parent's argument list, and the query
start time is cached; when a start time was already cached the leaf repeats
that same value. -/
theorem args_loop_now_step (clock : Nat → Datum) (f : Nat) (hf : 2 ≤ f)
    (xs : List JValue) (parent : Nat) (reg : Bool) (bt : Nat)
    (s0 : term_storage_t) (hparent : parent < s0.terms.length) :
    ∃ s1 d,
      add_args_loop clock (f + 1) (JValue.arr [JValue.num Term.NOW] :: xs)
          parent reg bt s0 =
        add_args_loop clock f xs parent reg bt s1 ∧
      s1.terms.length = s0.terms.length + 1 ∧
      (∀ j, j < s0.terms.length → j ≠ parent → s1.terms[j]? = s0.terms[j]?) ∧
      s1.terms[parent]? = (s0.terms[parent]?).map
        (fun tm => { tm with args_ := tm.args_ ++ [s0.terms.length] }) ∧
      (s1.terms[s0.terms.length]?).map raw_term_t.type = some Term.DATUM ∧
      (s1.terms[s0.terms.length]?).map raw_term_t.value = some d ∧
      s1.start_time = some d ∧
      (∀ d0, s0.start_time = some d0 → d = d0) ∧
      s1.global_optarg_list = s0.global_optarg_list := by
  cases reg with
  | false =>
    obtain ⟨hL, hpre, hnode, hstart, hglob, hcache⟩ :=
      now_leaf_state_facts clock 0 s0
    refine ⟨push_arg (now_leaf_state clock 0 s0) parent s0.terms.length,
      (get_time clock (new_term s0 Term.NOW 0).2).1, ?_, ?_, ?_, ?_, ?_, ?_,
      ?_, hcache, ?_⟩
    · have h0 : add_args_loop clock (f + 1)
          (JValue.arr [JValue.num Term.NOW] :: xs) parent false bt s0 =
          (parse_internal clock f (JValue.arr [JValue.num Term.NOW]) false 0
            s0).bind
            (fun r => add_args_loop clock f xs parent false bt
              (push_arg r.2 parent r.1)) := rfl
      rw [h0, parse_now_leaf clock f hf false 0 s0]
      rfl
    · rw [push_arg_length, hL]
    · intro j hj hjp
      rw [push_arg_getElem, if_neg hjp, hpre j hj]
    · rw [push_arg_getElem, if_pos rfl, hpre parent hparent]
    · rw [push_arg_getElem, if_neg (by omega), hnode]
      rfl
    · rw [push_arg_getElem, if_neg (by omega), hnode]
      rfl
    · have := (push_arg_stable (now_leaf_state clock 0 s0) parent
        s0.terms.length).2 _ hstart
      exact this
    · exact ((push_arg_stable (now_leaf_state clock 0 s0) parent
        s0.terms.length).1).trans hglob
  | true =>
    obtain ⟨hL, hpre, hnode, hstart, hglob, hcache⟩ :=
      now_leaf_state_facts clock (new_frame s0).1 (new_frame s0).2
    refine ⟨push_arg (now_leaf_state clock (new_frame s0).1 (new_frame s0).2)
        parent s0.terms.length,
      (get_time clock (new_term (new_frame s0).2 Term.NOW
        (new_frame s0).1).2).1, ?_, ?_, ?_, ?_, ?_, ?_, ?_, hcache, ?_⟩
    · have h0 : add_args_loop clock (f + 1)
          (JValue.arr [JValue.num Term.NOW] :: xs) parent true bt s0 =
          (parse_internal clock f (JValue.arr [JValue.num Term.NOW]) true
            (new_frame s0).1 (new_frame s0).2).bind
            (fun r => add_args_loop clock f xs parent true bt
              (push_arg r.2 parent r.1)) := rfl
      rw [h0, parse_now_leaf clock f hf true (new_frame s0).1 (new_frame s0).2]
      rfl
    · rw [push_arg_length, hL]
      rfl
    · intro j hj hjp
      rw [push_arg_getElem, if_neg hjp]
      exact hpre j hj
    · rw [push_arg_getElem, if_pos rfl]
      rw [hpre parent hparent]
      rfl
    · rw [push_arg_getElem, if_neg (by omega)]
      rw [show (now_leaf_state clock (new_frame s0).1
          (new_frame s0).2).terms[s0.terms.length]? =
        some { type := Term.DATUM, bt := (new_frame s0).1,
               value := (get_time clock (new_term (new_frame s0).2 Term.NOW
                 (new_frame s0).1).2).1 } from hnode]
      rfl
    · rw [push_arg_getElem, if_neg (by omega)]
      rw [show (now_leaf_state clock (new_frame s0).1
          (new_frame s0).2).terms[s0.terms.length]? =
        some { type := Term.DATUM, bt := (new_frame s0).1,
               value := (get_time clock (new_term (new_frame s0).2 Term.NOW
                 (new_frame s0).1).2).1 } from hnode]
      rfl
    · exact (push_arg_stable _ parent s0.terms.length).2 _ hstart
    · exact ((push_arg_stable _ parent s0.terms.length).1).trans hglob

/-- Two `[NOW]` children parsed by one `add_args` loop fold to two `DATUM`
leaves carrying the *same* datum — the cached query start time. -/
theorem args_loop_now_pair (clock : Nat → Datum) (parent : Nat) (reg : Bool)
    (bt : Nat) (s0 : term_storage_t) (hparent : parent < s0.terms.length) :
    ∃ s4 d,
      add_args_loop clock 15
        [JValue.arr [JValue.num Term.NOW], JValue.arr [JValue.num Term.NOW]]
        parent reg bt s0 = .ok s4 ∧
      s4.terms.length = s0.terms.length + 2 ∧
      (∀ j, j < s0.terms.length → j ≠ parent → s4.terms[j]? = s0.terms[j]?) ∧
      s4.terms[parent]? = (s0.terms[parent]?).map
        (fun tm =>
          { tm with
            args_ := tm.args_ ++ [s0.terms.length, s0.terms.length + 1] }) ∧
      (s4.terms[s0.terms.length]?).map raw_term_t.type = some Term.DATUM ∧
      (s4.terms[s0.terms.length]?).map raw_term_t.value = some d ∧
      (s4.terms[s0.terms.length + 1]?).map raw_term_t.type = some Term.DATUM ∧
      (s4.terms[s0.terms.length + 1]?).map raw_term_t.value = some d ∧
      s4.start_time = some d ∧
      s4.global_optarg_list = s0.global_optarg_list := by
  obtain ⟨s1, d1, heq1, hlen1, hpre1, hpar1, hty1, hval1, hst1, -, hg1⟩ :=
    args_loop_now_step clock 14 (by omega) [JValue.arr [JValue.num Term.NOW]]
      parent reg bt s0 hparent
  obtain ⟨s2, d2, heq2, hlen2, hpre2, hpar2, hty2, hval2, hst2, hcache2, hg2⟩ :=
    args_loop_now_step clock 13 (by omega) [] parent reg bt s1 (by omega)
  have hd : d2 = d1 := hcache2 d1 hst1
  subst hd
  refine ⟨s2, d2, ?_, by omega, ?_, ?_, ?_, ?_, ?_, ?_, hst2, hg2.trans hg1⟩
  · rw [heq1, heq2]
    exact add_args_loop_nil_eq clock 12 parent reg bt s2
  · intro j hj hjp
    rw [hpre2 j (by omega) hjp, hpre1 j hj hjp]
  · rw [hpar2, hlen1, hpar1]
    cases s0.terms[parent]? with
    | none => rfl
    | some t =>
      dsimp only [Option.map]
      rw [List.append_assoc]
      rfl
  · rw [hpre2 s0.terms.length (by omega) (by omega)]
    exact hty1
  · rw [hpre2 s0.terms.length (by omega) (by omega)]
    exact hval1
  · rw [hlen1] at hty2
    exact hty2
  · rw [hlen1] at hval2
    exact hval2

/-- The query `[MAKE_ARRAY, [[NOW], [NOW]]]`: two nullary `now()` calls in
one query. -/
def now_pair_query : JValue :=
  JValue.arr [JValue.num Term.MAKE_ARRAY,
    JValue.arr [JValue.arr [JValue.num Term.NOW],
      JValue.arr [JValue.num Term.NOW]]]

/-- C6: nullary `NOW` terms are folded in place to `DATUM` terms carrying the
storage's cached query start time: the cache is stable across a parse, no
successful parse leaves a nullary `NOW` node behind, and in a query with two
`now()` occurrences both resulting `DATUM` leaves carry the same value, which
a subsequent `get_time()` returns again. -/
theorem claim_C6 (clock : Nat → Datum) :
    (∀ v reg bt s i s1 d, parse_internal_run clock v reg bt s = .ok (i, s1) →
      s.start_time = some d → s1.start_time = some d) ∧
    (∀ v reg bt s i s1, parse_internal_run clock v reg bt s = .ok (i, s1) →
      no_nullary_now s → no_nullary_now s1) ∧
    (∀ reg bt s, ∃ s1 d,
      parse_internal_run clock now_pair_query reg bt s =
        .ok (s.terms.length, s1) ∧
      (s1.terms[s.terms.length + 1]?).map raw_term_t.type = some Term.DATUM ∧
      (s1.terms[s.terms.length + 1]?).map raw_term_t.value = some d ∧
      (s1.terms[s.terms.length + 2]?).map raw_term_t.type = some Term.DATUM ∧
      (s1.terms[s.terms.length + 2]?).map raw_term_t.value = some d ∧
      (s1.terms[s.terms.length]?).map raw_term_t.args_ =
        some [s.terms.length + 1, s.terms.length + 2] ∧
      s1.start_time = some d ∧
      get_time clock s1 = (d, s1)) := by
  refine ⟨?_, ?_, ?_⟩
  · intro v reg bt s i s1 d h hd
    exact ((parse_family_ok clock (jsize v)).1 v reg bt s i s1 h).2.2.2.1.2 d hd
  · intro v reg bt s i s1 h h0
    obtain ⟨-, hlen, hpre, -, hnn⟩ :=
      (parse_family_ok clock (jsize v)).1 v reg bt s i s1 h
    unfold no_nullary_now at h0 ⊢
    intro j t hj
    by_cases hlt : j < s.terms.length
    · rw [hpre j hlt] at hj
      exact h0 j t hj
    · exact (hnn j t (by omega) hj).2
  · intro reg bt s
    have hMA : ¬(Term.MAKE_ARRAY = Term.DATUM) := by decide
    obtain ⟨s4, d, heq, hlen, hpre, hpar, hty1, hval1, hty2, hval2, hst, hg⟩ :=
      args_loop_now_pair clock (new_term s Term.MAKE_ARRAY bt).1 reg bt
        (new_term s Term.MAKE_ARRAY bt).2
        (by rw [new_term_length]; exact Nat.lt_succ_self s.terms.length)
    rw [new_term_length] at hty1 hval1 hty2 hval2 hpar
    have hpar0 : s4.terms[s.terms.length]? =
        some { type := Term.MAKE_ARRAY, bt := bt,
               args_ := [s.terms.length + 1, s.terms.length + 2] } := by
      rw [show (s4.terms[s.terms.length]? : Option raw_term_t) =
        s4.terms[(new_term s Term.MAKE_ARRAY bt).1]? from rfl]
      rw [hpar, new_term_getElem,
        if_pos (show (new_term s Term.MAKE_ARRAY bt).1 = s.terms.length
          from rfl)]
      rfl
    refine ⟨s4, d, ?_, hty1, hval1, hty2, hval2, ?_, hst,
      get_time_of_some clock s4 d hst⟩
    · show parse_internal clock (16 + 1)
        (JValue.arr [JValue.num Term.MAKE_ARRAY,
          JValue.arr [JValue.arr [JValue.num Term.NOW],
            JValue.arr [JValue.num Term.NOW]]]) reg bt s = _
      rw [parse_internal_arr_num_one_eq, if_neg hMA]
      have hargs : add_args clock 16
          (JValue.arr [JValue.arr [JValue.num Term.NOW],
            JValue.arr [JValue.num Term.NOW]])
          (new_term s Term.MAKE_ARRAY bt).1 reg bt
          (new_term s Term.MAKE_ARRAY bt).2 = .ok s4 := by
        rw [show (16 : Nat) = 15 + 1 from rfl, add_args_arr_eq]
        exact heq
      rw [hargs]
      show Except.ok (now_rewrite clock (new_term s Term.MAKE_ARRAY bt).1
        s4) = _
      rw [now_rewrite_id clock (new_term s Term.MAKE_ARRAY bt).1 s4 _ hpar0
        (fun hc => absurd (show Term.MAKE_ARRAY = Term.NOW from hc)
          (by decide))]
      rfl
    · rw [hpar0]
      rfl

theorem claim_C6_witness :
    ∃ s1, parse_internal_run (fun _ => Datum.null) JValue.null true 0
      { terms := [], global_optarg_list := [],
        start_time := some Datum.null, clock_tick := 0, bt_counter := 0 } =
      .ok (0, s1) ∧ s1.start_time = some Datum.null :=
  ⟨_, rfl,
    (claim_C6 (fun _ => Datum.null)).1 JValue.null true 0
      { terms := [], global_optarg_list := [],
        start_time := some Datum.null, clock_tick := 0, bt_counter := 0 }
      0 _ Datum.null rfl rfl⟩

/-! ### The global optarg list (claim C8) -/

theorem list_set_concat_length {α : Type} (l : List α) (a b : α) :
    (l ++ [a]).set l.length b = l ++ [b] := by
  induction l with
  | nil => rfl
  | cons x xs ih =>
    show x :: (xs ++ [a]).set xs.length b = x :: (xs ++ [b])
    rw [ih]

/-- Mutating the node just appended to the arena. -/
theorem modify_append_last_eq (s : term_storage_t) (nd : raw_term_t)
    (g : List Nat) (f : raw_term_t → raw_term_t) :
    modify_term { s with terms := s.terms ++ [nd], global_optarg_list := g }
      s.terms.length f =
      { s with terms := s.terms ++ [f nd], global_optarg_list := g } := by
  have hg : ({ s with terms := s.terms ++ [nd], global_optarg_list := g } :
      term_storage_t).terms[s.terms.length]? = some nd := by
    dsimp only
    exact List.getElem?_concat_length _ _
  unfold modify_term
  rw [hg]
  dsimp only
  rw [list_set_concat_length]

theorem modify_new_term_eq (s : term_storage_t) (ty : Int) (bt : Nat)
    (f : raw_term_t → raw_term_t) :
    modify_term (new_term s ty bt).2 (new_term s ty bt).1 f =
      { s with terms := s.terms ++ [f { type := ty, bt := bt }] } :=
  modify_append_last_eq s { type := ty, bt := bt } s.global_optarg_list f

/-- `new_ref` on a live node, with the match on the source resolved. -/
theorem new_ref_eq (s : term_storage_t) (i : Nat) (t : raw_term_t)
    (h : s.terms[i]? = some t) :
    new_ref s i = (s.terms.length,
      { s with terms := s.terms ++
          [{ type := REFERENCE, bt := t.bt,
             src := if t.type = REFERENCE then t.src else some i }] }) := by
  unfold new_ref
  rw [h]

theorem minidriver_fun_eq (s : term_storage_t) (body : Nat) :
    minidriver_fun s body = (s.terms.length,
      { s with terms := s.terms ++
          [{ type := Term.FUNC, bt := 0, args_ := [body] }] }) := by
  show ((new_term s Term.FUNC 0).1,
    modify_term (new_term s Term.FUNC 0).2 (new_term s Term.FUNC 0).1
      (fun t => { t with args_ := [body] })) = _
  rw [modify_new_term_eq]
  rfl

theorem minidriver_db_eq (s : term_storage_t) (name : String) :
    minidriver_db s name = (s.terms.length + 1,
      { s with terms := s.terms ++
          [{ type := Term.DATUM, bt := 0, value := Datum.str name },
           { type := Term.DB, bt := 0, args_ := [s.terms.length] }] }) := by
  show ((new_term (modify_term (new_term s Term.DATUM 0).2
      (new_term s Term.DATUM 0).1
      (fun t => { t with value := Datum.str name })) Term.DB 0).1,
    modify_term
      (new_term (modify_term (new_term s Term.DATUM 0).2
        (new_term s Term.DATUM 0).1
        (fun t => { t with value := Datum.str name })) Term.DB 0).2
      (new_term (modify_term (new_term s Term.DATUM 0).2
        (new_term s Term.DATUM 0).1
        (fun t => { t with value := Datum.str name })) Term.DB 0).1
      (fun t => { t with args_ := [(new_term s Term.DATUM 0).1] })) = _
  rw [modify_new_term_eq, modify_new_term_eq]
  simp [new_term, List.append_assoc]

/-- The state one pass of the `add_global_optargs` loop builds from the
parsed member value at index `i0` of storage `s2`: the `expr` reference, the
`fun` wrapper around it, the wrapper appended to the global optarg list, and
the member key stored as its optarg name. -/
def global_wrap_state (s2 : term_storage_t) (i0 : Nat) (k : String) :
    term_storage_t :=
  modify_term
    { (minidriver_fun (minidriver_expr s2 i0).2 (minidriver_expr s2 i0).1).2 with
      global_optarg_list :=
        (minidriver_fun (minidriver_expr s2 i0).2
          (minidriver_expr s2 i0).1).2.global_optarg_list ++
          [(minidriver_fun (minidriver_expr s2 i0).2
            (minidriver_expr s2 i0).1).1] }
    (minidriver_fun (minidriver_expr s2 i0).2 (minidriver_expr s2 i0).1).1
    (fun tm => { tm with optarg_name := k })

theorem global_loop_nil_eq (clock : Nat → Datum) (has_db : Bool)
    (s : term_storage_t) :
    add_global_optargs_loop clock [] has_db s = .ok (has_db, s) := rfl

theorem global_loop_cons_eq (clock : Nat → Datum) (k : String) (v : JValue)
    (ms : List (String × JValue)) (has_db : Bool) (s : term_storage_t) :
    add_global_optargs_loop clock ((k, v) :: ms) has_db s =
      (parse_internal_run clock v false 0 s).bind (fun r =>
        add_global_optargs_loop clock ms (has_db || (k == "db"))
          (global_wrap_state r.2 r.1 k)) := rfl

theorem global_wrap_state_eq (s2 : term_storage_t) (i0 : Nat)
    (t0 : raw_term_t) (ht0 : s2.terms[i0]? = some t0) (k : String) :
    global_wrap_state s2 i0 k = { s2 with
      terms := s2.terms ++
        [{ type := REFERENCE, bt := t0.bt,
           src := if t0.type = REFERENCE then t0.src else some i0 },
         { type := Term.FUNC, bt := 0, args_ := [s2.terms.length],
           optarg_name := k }],
      global_optarg_list :=
        s2.global_optarg_list ++ [s2.terms.length + 1] } := by
  unfold global_wrap_state minidriver_expr
  rw [new_ref_eq s2 i0 t0 ht0]
  dsimp only
  rw [minidriver_fun_eq]
  dsimp only
  exact (modify_append_last_eq
      { s2 with terms := s2.terms ++
          [{ type := REFERENCE, bt := t0.bt,
             src := if t0.type = REFERENCE then t0.src else some i0 }] }
      { type := Term.FUNC, bt := 0, args_ := [s2.terms.length] }
      (s2.global_optarg_list ++
        [({ s2 with terms := s2.terms ++
            [{ type := REFERENCE, bt := t0.bt,
               src := if t0.type = REFERENCE then t0.src else some i0 }] } :
          term_storage_t).terms.length])
      (fun tm => { tm with optarg_name := k })).trans
    (by simp [List.append_assoc])

/-- `add_db_default` spelled out as the three appended nodes —
`DATUM "test"`, `DB` applied to it, the `fun` wrapper named `db` — plus the
wrapper's index on the global optarg list. -/
theorem add_db_default_eq (s : term_storage_t) :
    add_db_default s = { s with
      terms := s.terms ++
        [{ type := Term.DATUM, bt := 0, value := Datum.str "test" },
         { type := Term.DB, bt := 0, args_ := [s.terms.length] },
         { type := Term.FUNC, bt := 0, args_ := [s.terms.length + 1],
           optarg_name := "db" }],
      global_optarg_list :=
        s.global_optarg_list ++ [s.terms.length + 2] } := by
  unfold add_db_default
  rw [minidriver_db_eq]
  dsimp only
  rw [minidriver_fun_eq]
  dsimp only
  exact (modify_append_last_eq
      { s with terms := s.terms ++
          [{ type := Term.DATUM, bt := 0, value := Datum.str "test" },
           { type := Term.DB, bt := 0, args_ := [s.terms.length] }] }
      { type := Term.FUNC, bt := 0, args_ := [s.terms.length + 1] }
      (s.global_optarg_list ++
        [({ s with terms := s.terms ++
            [{ type := Term.DATUM, bt := 0, value := Datum.str "test" },
             { type := Term.DB, bt := 0, args_ := [s.terms.length] }] } :
          term_storage_t).terms.length])
      (fun tm => { tm with optarg_name := "db" })).trans
    (by simp [List.append_assoc])

/-- A well-formed global optarg wrapper: a `FUNC` term carrying the member's
key as its optarg name, whose single argument is a `REFERENCE` (the
`expr`-wrapped member value). -/
def global_wrapper_ok (s1 : term_storage_t) (g : Nat) (k : String) : Prop :=
  ∃ t, s1.terms[g]? = some t ∧ t.type = Term.FUNC ∧ t.optarg_name = k ∧
    ∃ e, t.args_ = [e] ∧ ∃ u, s1.terms[e]? = some u ∧ u.type = REFERENCE

/-- The default `db` global optarg: a `FUNC` wrapper named `db` whose body is
`DB` applied to the datum `"test"`. -/
def db_default_ok (s1 : term_storage_t) (g : Nat) : Prop :=
  ∃ t, s1.terms[g]? = some t ∧ t.type = Term.FUNC ∧ t.optarg_name = "db" ∧
    ∃ e, t.args_ = [e] ∧ ∃ u, s1.terms[e]? = some u ∧ u.type = Term.DB ∧
      ∃ a, u.args_ = [a] ∧ ∃ w, s1.terms[a]? = some w ∧
        w.type = Term.DATUM ∧ w.value = Datum.str "test"

theorem global_wrapper_ok_mono {s2 s3 : term_storage_t}
    (hpre : ∀ j, j < s2.terms.length → s3.terms[j]? = s2.terms[j]?)
    {g : Nat} {k : String} (h : global_wrapper_ok s2 g k) :
    global_wrapper_ok s3 g k := by
  obtain ⟨t, ht, hty, hname, e, he, u, hu, huty⟩ := h
  have hg : g < s2.terms.length := by
    by_contra hge
    rw [List.getElem?_eq_none (by omega)] at ht
    exact Option.noConfusion ht
  have he2 : e < s2.terms.length := by
    by_contra hge
    rw [List.getElem?_eq_none (by omega)] at hu
    exact Option.noConfusion hu
  exact ⟨t, (hpre g hg).trans ht, hty, hname, e, he, u,
    (hpre e he2).trans hu, huty⟩

/-- What a successful run of the `add_global_optargs` member loop
guarantees. -/
theorem global_loop_spec (clock : Nat → Datum) (ms : List (String × JValue)) :
    ∀ (has_db : Bool) (s : term_storage_t) (b : Bool) (s1 : term_storage_t),
    add_global_optargs_loop clock ms has_db s = .ok (b, s1) →
    b = (has_db || ms.any (fun m => m.1 == "db")) ∧
    s.terms.length ≤ s1.terms.length ∧
    (∀ j, j < s.terms.length → s1.terms[j]? = s.terms[j]?) ∧
    ∃ gmem, s1.global_optarg_list = s.global_optarg_list ++ gmem ∧
      List.Forall₂ (fun g (m : String × JValue) => global_wrapper_ok s1 g m.1)
        gmem ms := by
  induction ms with
  | nil =>
    intro has_db s b s1 h
    rw [global_loop_nil_eq] at h
    injection h with h
    injection h with hb hs
    subst hb
    subst hs
    exact ⟨by simp, le_refl _, fun j hj => rfl, [], by simp, List.Forall₂.nil⟩
  | cons kv ms ih =>
    obtain ⟨k, v⟩ := kv
    intro has_db s b s1 h
    rw [global_loop_cons_eq] at h
    obtain ⟨r, hparse, hrest⟩ := except_bind_ok h
    obtain ⟨i0, s2⟩ := r
    dsimp only at hrest
    obtain ⟨hi0, hgrow, hpre2, hstab2, hnn2⟩ :=
      (parse_family_ok clock (jsize v)).1 v false 0 s i0 s2 hparse
    obtain ⟨t0, ht0⟩ : ∃ t0, s2.terms[i0]? = some t0 := by
      cases hx : s2.terms[i0]? with
      | none =>
        rw [List.getElem?_eq_none_iff] at hx
        omega
      | some t0 => exact ⟨t0, rfl⟩
    rw [global_wrap_state_eq s2 i0 t0 ht0 k] at hrest
    obtain ⟨hb, hlen5, hpre5, gmem2, hglob5, hforall5⟩ :=
      ih (has_db || (k == "db")) _ b s1 hrest
    have hL5len : ({ s2 with
        terms := s2.terms ++
          [{ type := REFERENCE, bt := t0.bt,
             src := if t0.type = REFERENCE then t0.src else some i0 },
           { type := Term.FUNC, bt := 0, args_ := [s2.terms.length],
             optarg_name := k }],
        global_optarg_list :=
          s2.global_optarg_list ++ [s2.terms.length + 1] } :
        term_storage_t).terms.length = s2.terms.length + 2 := by
      simp
    refine ⟨?_, by rw [hL5len] at hlen5; omega, ?_,
      (s2.terms.length + 1) :: gmem2, ?_, ?_⟩
    · rw [hb, List.any_cons]
      dsimp only
      rw [Bool.or_assoc]
    · intro j hj
      rw [hpre5 j (by rw [hL5len]; omega)]
      dsimp only
      rw [List.getElem?_append, if_pos (by omega)]
      exact hpre2 j hj
    · rw [hglob5]
      dsimp only
      rw [hstab2.1]
      simp [List.append_assoc]
    · refine List.Forall₂.cons ?_ hforall5
      refine global_wrapper_ok_mono hpre5 ?_
      refine ⟨{ type := Term.FUNC, bt := 0, args_ := [s2.terms.length],
                optarg_name := k }, ?_, rfl, rfl, s2.terms.length, rfl,
        { type := REFERENCE, bt := t0.bt,
          src := if t0.type = REFERENCE then t0.src else some i0 }, ?_, rfl⟩
      · dsimp only
        rw [List.getElem?_append_right (by omega),
          show s2.terms.length + 1 - s2.terms.length = 1 from by omega]
        rfl
      · dsimp only
        rw [List.getElem?_append_right (le_refl _), Nat.sub_self]
        rfl

/-- C8: after `add_global_optargs` on a JSON object, every member appears on
the global optarg list as a `fun(expr(value))` wrapper carrying the member's
key as its optarg name, in member order; exactly when no member has the key
`db`, one extra global optarg named `db` with body `fun(db("test"))` is
appended at the end of the list. -/
theorem claim_C8 (clock : Nat → Datum) (ms : List (String × JValue))
    (s s1 : term_storage_t)
    (h : add_global_optargs clock (JValue.obj ms) s = .ok s1) :
    ∃ gmem,
      List.Forall₂ (fun g (m : String × JValue) => global_wrapper_ok s1 g m.1)
        gmem ms ∧
      (if ms.any (fun m => m.1 == "db") = true then
        s1.global_optarg_list = s.global_optarg_list ++ gmem
      else ∃ gdb, db_default_ok s1 gdb ∧
        s1.global_optarg_list = s.global_optarg_list ++ gmem ++ [gdb]) := by
  rw [add_global_optargs_obj_unfold] at h
  obtain ⟨r, hloop, hres⟩ := except_map_ok h
  obtain ⟨b, s2⟩ := r
  dsimp only at hres
  obtain ⟨hb, hlen2, hpre2, gmem, hglob2, hforall2⟩ :=
    global_loop_spec clock ms false s b s2 hloop
  rw [Bool.false_or] at hb
  by_cases hany : ms.any (fun m => m.1 == "db") = true
  · have hres2 : s2 = s1 := by
      rw [hb, hany] at hres
      simpa using hres
    subst hres2
    exact ⟨gmem, hforall2, by rw [if_pos hany]; exact hglob2⟩
  · have hbf : b = false := by
      cases hx : ms.any (fun m => m.1 == "db") with
      | true => exact absurd hx hany
      | false => rw [hb, hx]
    have hres2 : add_db_default s2 = s1 := by
      rw [hbf] at hres
      simpa using hres
    rw [add_db_default_eq] at hres2
    subst hres2
    refine ⟨gmem, ?_, ?_⟩
    · refine hforall2.imp (fun g m hgm => global_wrapper_ok_mono ?_ hgm)
      intro j hj
      dsimp only
      rw [List.getElem?_append, if_pos (by omega)]
    · rw [if_neg hany]
      refine ⟨s2.terms.length + 2, ?_, ?_⟩
      · refine ⟨{ type := Term.FUNC, bt := 0,
                  args_ := [s2.terms.length + 1], optarg_name := "db" },
          ?_, rfl,
          rfl, s2.terms.length + 1, rfl,
          { type := Term.DB, bt := 0, args_ := [s2.terms.length] }, ?_, rfl,
          s2.terms.length, rfl,
          { type := Term.DATUM, bt := 0, value := Datum.str "test" }, ?_,
          rfl, rfl⟩
        · dsimp only
          rw [List.getElem?_append_right (by omega),
            show s2.terms.length + 2 - s2.terms.length = 2 from by omega]
          rfl
        · dsimp only
          rw [List.getElem?_append_right (by omega),
            show s2.terms.length + 1 - s2.terms.length = 1 from by omega]
          rfl
        · dsimp only
          rw [List.getElem?_append_right (le_refl _), Nat.sub_self]
          rfl
      · dsimp only
        rw [hglob2]

theorem claim_C8_witness :
    ∃ gmem,
      List.Forall₂ (fun g (m : String × JValue) =>
          global_wrapper_ok (add_db_default {}) g m.1)
        gmem ([] : List (String × JValue)) ∧
      (if ([] : List (String × JValue)).any (fun m => m.1 == "db") = true then
        (add_db_default {}).global_optarg_list =
          ({} : term_storage_t).global_optarg_list ++ gmem
      else ∃ gdb, db_default_ok (add_db_default {}) gdb ∧
        (add_db_default {}).global_optarg_list =
          ({} : term_storage_t).global_optarg_list ++ gmem ++ [gdb]) :=
  claim_C8 (fun _ => Datum.null) [] {} (add_db_default {}) rfl

/-! ### The latest-codec wire format (claims C2 and C10) -/

/-- The pointer view of a `raw_term_t` tree as the (de)serializer walks it:
a `DATUM` leaf with its datum, an apply node with its argument and optarg
children (an optarg child's name is the one its list entry carries), or a
`REFERENCE` wrapper with its `src` pointer. -/
inductive tree_term where
  | datum (bt : Nat) (d : Datum) : tree_term
  | node (ty : Int) (bt : Nat) (args : List tree_term)
      (optargs : List (String × tree_term)) : tree_term
  | ref (bt : Nat) (src : tree_term) : tree_term
deriving Repr

/-- One token of the wire stream. The real stream is bytes; each
`serialize<W>` call of the source emits one token here, and each
`deserialize<W>` call reads one, failing on a token of the wrong kind just
as the byte-level deserializer fails on malformed input. -/
inductive wire_tok where
  | i32 (n : Int) : wire_tok
  | bt (b : Nat) : wire_tok
  | sz (n : Nat) : wire_tok
  | str (s : String) : wire_tok
  | dat (d : Datum) : wire_tok
deriving Repr

/-- `arg_iterator_t::next()`: a `REFERENCE` list entry is dereferenced to its
`src` before being handed out; anything else is handed out as is. -/
def iter_deref : tree_term → tree_term
  | .ref _ s => s
  | t => t

mutual

/-- `serialize_term_tree` (latest version): emits the term's own type tag and
backtrace id; a `DATUM` term is followed by its datum; any other term is
followed by its argument count, its arguments (each child dereferenced by
`arg_iterator_t::next`), its optarg count and its optargs (name first, child
dereferenced likewise). A `REFERENCEE` term is not special-cased: its own tag
(`-1`) is emitted, and `num_args`/`args()` then read the raw child lists of
its `src` (empty for a `DATUM` or `REFERENCE` target). -/
def serialize_term_tree : tree_term → List wire_tok
  | .datum bt d => [.i32 Term.DATUM, .bt bt, .dat d]
  | .node ty bt args optargs =>
      .i32 ty :: .bt bt :: .sz args.length ::
        (serialize_args args ++
          (.sz optargs.length :: serialize_optargs optargs))
  | .ref bt (.node _ _ args2 optargs2) =>
      .i32 REFERENCE :: .bt bt :: .sz args2.length ::
        (serialize_args args2 ++
          (.sz optargs2.length :: serialize_optargs optargs2))
  | .ref bt (.datum _ _) => [.i32 REFERENCE, .bt bt, .sz 0, .sz 0]
  | .ref bt (.ref _ _) => [.i32 REFERENCE, .bt bt, .sz 0, .sz 0]

/-- The argument loop of `serialize_term_tree`: each child as produced by
`arg_iterator_t::next`, i.e. a `REFERENCE` entry is replaced by its target. -/
def serialize_args : List tree_term → List wire_tok
  | [] => []
  | .ref _ s :: cs => serialize_term_tree s ++ serialize_args cs
  | c :: cs => serialize_term_tree c ++ serialize_args cs

/-- The optarg loop of `serialize_term_tree`: the name is taken from the list
entry itself (`optarg_it.optarg_name()` reads `last_item`), the serialized
child is the dereferenced one. -/
def serialize_optargs : List (String × tree_term) → List wire_tok
  | [] => []
  | (k, .ref _ s) :: cs =>
      .str k :: (serialize_term_tree s ++ serialize_optargs cs)
  | (k, c) :: cs => .str k :: (serialize_term_tree c ++ serialize_optargs cs)

end

mutual

/-- `term_storage_t::deserialize_term_tree<v2_1_is_latest>`, fueled (the C++
recursion is bounded by the depth of the well-formed streams it is fed; the
fuel-exhausted branch returns the same failure as a bad read). Reads type and
backtrace id; for `DATUM` it reads the datum — with the read's result
ignored, as in the source (line 477), so a failed datum read leaves the
default datum; otherwise it reads the argument count and that many subtrees,
then the optarg count and that many name/subtree pairs. -/
def deserialize_term_tree :
    Nat → List wire_tok → Option (tree_term × List wire_tok)
  | 0, _ => none
  | fuel + 1, ws =>
    match ws with
    | .i32 ty :: .bt b :: rest =>
      if ty = Term.DATUM then
        match rest with
        | .dat d :: rest2 => some (.datum b d, rest2)
        | _ => some (.datum b Datum.null, rest)
      else
        match rest with
        | .sz n :: rest2 =>
          (deserialize_args fuel n rest2).bind (fun r =>
            match r.2 with
            | .sz m :: rest4 =>
              (deserialize_optargs fuel m rest4).map (fun r2 =>
                (.node ty b r.1 r2.1, r2.2))
            | _ => none)
        | _ => none
    | _ => none

/-- The argument loop of the deserializer. -/
def deserialize_args :
    Nat → Nat → List wire_tok → Option (List tree_term × List wire_tok)
  | 0, _, _ => none
  | _ + 1, 0, ws => some ([], ws)
  | fuel + 1, n + 1, ws =>
    (deserialize_term_tree fuel ws).bind (fun r =>
      (deserialize_args fuel n r.2).map (fun r2 => (r.1 :: r2.1, r2.2)))

/-- The optarg loop of the deserializer: name, then subtree, with the name
stored on the subtree. -/
def deserialize_optargs :
    Nat → Nat → List wire_tok →
    Option (List (String × tree_term) × List wire_tok)
  | 0, _, _ => none
  | _ + 1, 0, ws => some ([], ws)
  | fuel + 1, n + 1, ws =>
    match ws with
    | .str k :: rest =>
      (deserialize_term_tree fuel rest).bind (fun r =>
        (deserialize_optargs fuel n r.2).map (fun r2 =>
          ((k, r.1) :: r2.1, r2.2)))
    | _ => none

end

mutual

/-- Recursion fuel adequate for deserializing a tree's serialization. -/
def tsizeT : tree_term → Nat
  | .datum _ _ => 1
  | .node _ _ args optargs => 1 + tsizeA args + tsizeO optargs
  | .ref _ s => 1 + tsizeT s

/-- Fuel for the argument loop. -/
def tsizeA : List tree_term → Nat
  | [] => 1
  | c :: cs => 1 + tsizeT c + tsizeA cs

/-- Fuel for the optarg loop. -/
def tsizeO : List (String × tree_term) → Nat
  | [] => 1
  | (_, c) :: cs => 1 + tsizeT c + tsizeO cs

end

mutual

/-- The trees claim C2 quantifies over: no `REFERENCE` node anywhere, and
every apply node carries a genuine apply tag (neither `DATUM` nor
`REFERENCE`) — exactly the shape of parsed trees. -/
def wf_tree : tree_term → Bool
  | .datum _ _ => true
  | .node ty _ args optargs =>
      (ty != Term.DATUM) && (ty != REFERENCE) && wf_args args &&
        wf_optargs optargs
  | .ref _ _ => false

def wf_args : List tree_term → Bool
  | [] => true
  | c :: cs => wf_tree c && wf_args cs

def wf_optargs : List (String × tree_term) → Bool
  | [] => true
  | (_, c) :: cs => wf_tree c && wf_optargs cs

end

theorem wf_not_ref {c : tree_term} (h : wf_tree c = true) :
    ∀ bb ss, ¬(c = tree_term.ref bb ss) := by
  intro bb ss hc
  subst hc
  exact Bool.noConfusion h

theorem serialize_args_cons_eq (c : tree_term) (cs : List tree_term)
    (h : ∀ bb ss, ¬(c = tree_term.ref bb ss)) :
    serialize_args (c :: cs) = serialize_term_tree c ++ serialize_args cs := by
  cases c with
  | ref bb ss => exact absurd rfl (h bb ss)
  | datum bb dd => rfl
  | node ty bb aa oo => rfl

theorem serialize_optargs_cons_eq (k : String) (c : tree_term)
    (cs : List (String × tree_term)) (h : ∀ bb ss, ¬(c = tree_term.ref bb ss)) :
    serialize_optargs ((k, c) :: cs) =
      .str k :: (serialize_term_tree c ++ serialize_optargs cs) := by
  cases c with
  | ref bb ss => exact absurd rfl (h bb ss)
  | datum bb dd => rfl
  | node ty bb aa oo => rfl

theorem deserialize_node_eq (fuel : Nat) (ty : Int) (b : Nat) (n : Nat)
    (rest2 : List wire_tok) (hty : ¬(ty = Term.DATUM)) :
    deserialize_term_tree (fuel + 1) (.i32 ty :: .bt b :: .sz n :: rest2) =
      (deserialize_args fuel n rest2).bind (fun r =>
        match r.2 with
        | .sz m :: rest4 =>
          (deserialize_optargs fuel m rest4).map (fun r2 =>
            (.node ty b r.1 r2.1, r2.2))
        | _ => none) := by
  have h : deserialize_term_tree (fuel + 1)
      (.i32 ty :: .bt b :: .sz n :: rest2) =
      if ty = Term.DATUM then
        some (.datum b Datum.null, .sz n :: rest2)
      else
        (deserialize_args fuel n rest2).bind (fun r =>
          match r.2 with
          | .sz m :: rest4 =>
            (deserialize_optargs fuel m rest4).map (fun r2 =>
              (.node ty b r.1 r2.1, r2.2))
          | _ => none) := rfl
  rw [h, if_neg hty]

theorem deserialize_args_cons_eq (fuel n : Nat) (ws : List wire_tok) :
    deserialize_args (fuel + 1) (n + 1) ws =
      (deserialize_term_tree fuel ws).bind (fun r =>
        (deserialize_args fuel n r.2).map (fun r2 => (r.1 :: r2.1, r2.2))) :=
  rfl

theorem deserialize_optargs_cons_eq (fuel n : Nat) (k : String)
    (rest : List wire_tok) :
    deserialize_optargs (fuel + 1) (n + 1) (.str k :: rest) =
      (deserialize_term_tree fuel rest).bind (fun r =>
        (deserialize_optargs fuel n r.2).map (fun r2 =>
          ((k, r.1) :: r2.1, r2.2))) := rfl

theorem tsizeT_pos (t : tree_term) : 1 ≤ tsizeT t := by
  cases t with
  | datum b d => exact Nat.le_refl 1
  | node ty b a o =>
    have h : tsizeT (.node ty b a o) = 1 + tsizeA a + tsizeO o := rfl
    omega
  | ref b s =>
    have h : tsizeT (.ref b s) = 1 + tsizeT s := rfl
    omega

theorem tsizeA_pos (cs : List tree_term) : 1 ≤ tsizeA cs := by
  cases cs with
  | nil => exact Nat.le_refl 1
  | cons c cs =>
    have h : tsizeA (c :: cs) = 1 + tsizeT c + tsizeA cs := rfl
    omega

theorem tsizeO_pos (cs : List (String × tree_term)) : 1 ≤ tsizeO cs := by
  cases cs with
  | nil => exact Nat.le_refl 1
  | cons kc cs =>
    obtain ⟨k, c⟩ := kc
    have h : tsizeO ((k, c) :: cs) = 1 + tsizeT c + tsizeO cs := rfl
    omega

/-- The latest-codec round trip, proved for the three mutually recursive
(de)serializer functions simultaneously by induction on the fuel. -/
theorem codec_family_ok : ∀ fuel : Nat,
    (∀ t rest, wf_tree t = true → tsizeT t ≤ fuel →
      deserialize_term_tree fuel (serialize_term_tree t ++ rest) =
        some (t, rest)) ∧
    (∀ cs rest, wf_args cs = true → tsizeA cs ≤ fuel →
      deserialize_args fuel cs.length (serialize_args cs ++ rest) =
        some (cs, rest)) ∧
    (∀ cs rest, wf_optargs cs = true → tsizeO cs ≤ fuel →
      deserialize_optargs fuel cs.length (serialize_optargs cs ++ rest) =
        some (cs, rest)) := by
  intro fuel
  induction fuel with
  | zero =>
    refine ⟨?_, ?_, ?_⟩
    · intro t rest _ hsz
      exact absurd hsz (by have := tsizeT_pos t; omega)
    · intro cs rest _ hsz
      exact absurd hsz (by have := tsizeA_pos cs; omega)
    · intro cs rest _ hsz
      exact absurd hsz (by have := tsizeO_pos cs; omega)
  | succ fuel ih =>
    obtain ⟨ihT, ihA, ihO⟩ := ih
    refine ⟨?_, ?_, ?_⟩
    · intro t rest hwf hsz
      cases t with
      | datum b d => rfl
      | ref b s => exact Bool.noConfusion hwf
      | node ty b args optargs =>
        have hwf' : ((ty != Term.DATUM) && (ty != REFERENCE) && wf_args args &&
            wf_optargs optargs) = true := hwf
        rw [Bool.and_eq_true, Bool.and_eq_true, Bool.and_eq_true,
          bne_iff_ne, bne_iff_ne] at hwf'
        obtain ⟨⟨⟨hty1, hty2⟩, hargs⟩, hopts⟩ := hwf'
        have hsz' : 1 + tsizeA args + tsizeO optargs ≤ fuel + 1 := hsz
        show deserialize_term_tree (fuel + 1)
          (.i32 ty :: .bt b :: .sz args.length ::
            ((serialize_args args ++
              (.sz optargs.length :: serialize_optargs optargs)) ++ rest)) = _
        rw [deserialize_node_eq fuel ty b args.length _ hty1,
          List.append_assoc,
          ihA args ((.sz optargs.length :: serialize_optargs optargs) ++ rest)
            hargs (by have := tsizeO_pos optargs; omega)]
        show (deserialize_optargs fuel optargs.length
            (serialize_optargs optargs ++ rest)).map
            (fun r2 => (tree_term.node ty b args r2.1, r2.2)) = _
        rw [ihO optargs rest hopts (by have := tsizeA_pos args; omega)]
        rfl
    · intro cs rest hwf hsz
      cases cs with
      | nil => rfl
      | cons c cs =>
        have hwf' : (wf_tree c && wf_args cs) = true := hwf
        rw [Bool.and_eq_true] at hwf'
        obtain ⟨hc, hcs⟩ := hwf'
        have hsz' : 1 + tsizeT c + tsizeA cs ≤ fuel + 1 := hsz
        rw [serialize_args_cons_eq c cs (wf_not_ref hc), List.length_cons,
          List.append_assoc, deserialize_args_cons_eq,
          ihT c (serialize_args cs ++ rest) hc (by omega)]
        show (deserialize_args fuel cs.length
            (serialize_args cs ++ rest)).map
            (fun r2 => (c :: r2.1, r2.2)) = _
        rw [ihA cs rest hcs (by omega)]
        rfl
    · intro cs rest hwf hsz
      cases cs with
      | nil => rfl
      | cons kc cs =>
        obtain ⟨k, c⟩ := kc
        have hwf' : (wf_tree c && wf_optargs cs) = true := hwf
        rw [Bool.and_eq_true] at hwf'
        obtain ⟨hc, hcs⟩ := hwf'
        have hsz' : 1 + tsizeT c + tsizeO cs ≤ fuel + 1 := hsz
        rw [serialize_optargs_cons_eq k c cs (wf_not_ref hc),
          List.length_cons]
        show deserialize_optargs (fuel + 1) (cs.length + 1)
          (.str k :: ((serialize_term_tree c ++ serialize_optargs cs) ++
            rest)) = _
        rw [deserialize_optargs_cons_eq, List.append_assoc,
          ihT c (serialize_optargs cs ++ rest) hc (by omega)]
        show (deserialize_optargs fuel cs.length
            (serialize_optargs cs ++ rest)).map
            (fun r2 => ((k, c) :: r2.1, r2.2)) = _
        rw [ihO cs rest hcs (by omega)]
        rfl

/-- C2: the latest-codec round trip: serializing a well-formed,
`REFERENCE`-free term tree and deserializing the resulting stream with any
sufficient fuel returns exactly the same tree — same type at every position,
same backtrace ids, same datum values, same optarg names, same child order —
and leaves the remainder of the stream untouched. -/
theorem claim_C2 (fuel : Nat) (t : tree_term) (rest : List wire_tok)
    (hwf : wf_tree t = true) (hfuel : tsizeT t ≤ fuel) :
    deserialize_term_tree fuel (serialize_term_tree t ++ rest) =
      some (t, rest) :=
  (codec_family_ok fuel).1 t rest hwf hfuel

theorem claim_C2_witness :
    deserialize_term_tree 7
      (serialize_term_tree
        (tree_term.node Term.MAKE_ARRAY 0
          [tree_term.datum 0 (Datum.num 5)]
          [("x", tree_term.datum 0 (Datum.bool true))]) ++ []) =
      some (tree_term.node Term.MAKE_ARRAY 0
        [tree_term.datum 0 (Datum.num 5)]
        [("x", tree_term.datum 0 (Datum.bool true))], []) :=
  claim_C2 7 _ [] (by decide) (by decide)

mutual

/-- The trees the amended claim C10 quantifies over: no `REFERENCE` at the
root or as an apply tag, while argument and optarg *entries* may be
`REFERENCE` wrappers as long as their targets are themselves fine (the
one-hop shape `new_ref` maintains). -/
def serializable_ok : tree_term → Bool
  | .datum _ _ => true
  | .node ty _ args optargs =>
      (ty != REFERENCE) && serializable_args args &&
        serializable_optargs optargs
  | .ref _ _ => false

def serializable_args : List tree_term → Bool
  | [] => true
  | .ref _ s :: cs => serializable_ok s && serializable_args cs
  | c :: cs => serializable_ok c && serializable_args cs

def serializable_optargs : List (String × tree_term) → Bool
  | [] => true
  | (_, .ref _ s) :: cs => serializable_ok s && serializable_optargs cs
  | (_, c) :: cs => serializable_ok c && serializable_optargs cs

end

theorem serializable_args_mem : ∀ (cs : List tree_term),
    serializable_args cs = true → ∀ c, c ∈ cs →
    serializable_ok (iter_deref c) = true := by
  intro cs
  induction cs with
  | nil =>
    intro _ c hc
    exact absurd hc (List.not_mem_nil c)
  | cons c0 cs ih =>
    intro h c hc
    cases c0 with
    | ref bb ss =>
      have h2 : (serializable_ok ss && serializable_args cs) = true := h
      rw [Bool.and_eq_true] at h2
      rcases List.mem_cons.mp hc with hceq | hmem
      · subst hceq
        exact h2.1
      · exact ih h2.2 c hmem
    | datum bb dd =>
      have h2 : (serializable_ok (tree_term.datum bb dd) &&
          serializable_args cs) = true := h
      rw [Bool.and_eq_true] at h2
      rcases List.mem_cons.mp hc with hceq | hmem
      · subst hceq
        exact h2.1
      · exact ih h2.2 c hmem
    | node ty bb aa oo =>
      have h2 : (serializable_ok (tree_term.node ty bb aa oo) &&
          serializable_args cs) = true := h
      rw [Bool.and_eq_true] at h2
      rcases List.mem_cons.mp hc with hceq | hmem
      · subst hceq
        exact h2.1
      · exact ih h2.2 c hmem

theorem serializable_optargs_mem : ∀ (cs : List (String × tree_term)),
    serializable_optargs cs = true → ∀ k c, (k, c) ∈ cs →
    serializable_ok (iter_deref c) = true := by
  intro cs
  induction cs with
  | nil =>
    intro _ k c hc
    exact absurd hc (List.not_mem_nil (k, c))
  | cons kc0 cs ih =>
    obtain ⟨k0, c0⟩ := kc0
    intro h k c hc
    cases c0 with
    | ref bb ss =>
      have h2 : (serializable_ok ss && serializable_optargs cs) = true := h
      rw [Bool.and_eq_true] at h2
      rcases List.mem_cons.mp hc with hceq | hmem
      · injection hceq with hk hc2
        subst hc2
        exact h2.1
      · exact ih h2.2 k c hmem
    | datum bb dd =>
      have h2 : (serializable_ok (tree_term.datum bb dd) &&
          serializable_optargs cs) = true := h
      rw [Bool.and_eq_true] at h2
      rcases List.mem_cons.mp hc with hceq | hmem
      · injection hceq with hk hc2
        subst hc2
        exact h2.1
      · exact ih h2.2 k c hmem
    | node ty bb aa oo =>
      have h2 : (serializable_ok (tree_term.node ty bb aa oo) &&
          serializable_optargs cs) = true := h
      rw [Bool.and_eq_true] at h2
      rcases List.mem_cons.mp hc with hceq | hmem
      · injection hceq with hk hc2
        subst hc2
        exact h2.1
      · exact ih h2.2 k c hmem

theorem tsize_deref_le (c : tree_term) : tsizeT (iter_deref c) ≤ tsizeT c := by
  cases c with
  | ref b s =>
    have h : tsizeT (.ref b s) = 1 + tsizeT s := rfl
    show tsizeT s ≤ tsizeT (tree_term.ref b s)
    omega
  | datum b d => exact Nat.le_refl _
  | node ty b a o => exact Nat.le_refl _

theorem tsizeA_mem : ∀ (cs : List tree_term) (c : tree_term), c ∈ cs →
    tsizeT c < tsizeA cs := by
  intro cs
  induction cs with
  | nil =>
    intro c hc
    exact absurd hc (List.not_mem_nil c)
  | cons c0 cs ih =>
    intro c hc
    have he : tsizeA (c0 :: cs) = 1 + tsizeT c0 + tsizeA cs := rfl
    rcases List.mem_cons.mp hc with hceq | hmem
    · subst hceq
      omega
    · have := ih c hmem
      omega

theorem tsizeO_mem : ∀ (cs : List (String × tree_term)) (k : String)
    (c : tree_term), (k, c) ∈ cs → tsizeT c < tsizeO cs := by
  intro cs
  induction cs with
  | nil =>
    intro k c hc
    exact absurd hc (List.not_mem_nil (k, c))
  | cons kc0 cs ih =>
    obtain ⟨k0, c0⟩ := kc0
    intro k c hc
    have he : tsizeO ((k0, c0) :: cs) = 1 + tsizeT c0 + tsizeO cs := rfl
    rcases List.mem_cons.mp hc with hceq | hmem
    · injection hceq with hk hc2
      subst hc2
      omega
    · have := ih k c hmem
      omega

theorem mem_serialize_args : ∀ (cs : List tree_term) (tok : wire_tok),
    tok ∈ serialize_args cs →
    ∃ c, c ∈ cs ∧ tok ∈ serialize_term_tree (iter_deref c) := by
  intro cs
  induction cs with
  | nil =>
    intro tok h
    exact absurd h (List.not_mem_nil tok)
  | cons c0 cs ih =>
    intro tok h
    cases c0 with
    | ref bb ss =>
      have h2 : tok ∈ serialize_term_tree ss ++ serialize_args cs := h
      rcases List.mem_append.mp h2 with hl | hr
      · exact ⟨.ref bb ss, List.mem_cons_self _ _, hl⟩
      · obtain ⟨c, hc, hm⟩ := ih tok hr
        exact ⟨c, List.mem_cons_of_mem _ hc, hm⟩
    | datum bb dd =>
      have h2 : tok ∈ serialize_term_tree (tree_term.datum bb dd) ++
          serialize_args cs := h
      rcases List.mem_append.mp h2 with hl | hr
      · exact ⟨.datum bb dd, List.mem_cons_self _ _, hl⟩
      · obtain ⟨c, hc, hm⟩ := ih tok hr
        exact ⟨c, List.mem_cons_of_mem _ hc, hm⟩
    | node ty bb aa oo =>
      have h2 : tok ∈ serialize_term_tree (tree_term.node ty bb aa oo) ++
          serialize_args cs := h
      rcases List.mem_append.mp h2 with hl | hr
      · exact ⟨.node ty bb aa oo, List.mem_cons_self _ _, hl⟩
      · obtain ⟨c, hc, hm⟩ := ih tok hr
        exact ⟨c, List.mem_cons_of_mem _ hc, hm⟩

theorem mem_serialize_optargs : ∀ (cs : List (String × tree_term))
    (tok : wire_tok), tok ∈ serialize_optargs cs →
    ∃ k c, (k, c) ∈ cs ∧
      (tok = wire_tok.str k ∨ tok ∈ serialize_term_tree (iter_deref c)) := by
  intro cs
  induction cs with
  | nil =>
    intro tok h
    exact absurd h (List.not_mem_nil tok)
  | cons kc0 cs ih =>
    obtain ⟨k0, c0⟩ := kc0
    intro tok h
    cases c0 with
    | ref bb ss =>
      have h2 : tok ∈ wire_tok.str k0 ::
          (serialize_term_tree ss ++ serialize_optargs cs) := h
      rcases List.mem_cons.mp h2 with hk | hrest
      · exact ⟨k0, .ref bb ss, List.mem_cons_self _ _, Or.inl hk⟩
      · rcases List.mem_append.mp hrest with hl | hr
        · exact ⟨k0, .ref bb ss, List.mem_cons_self _ _, Or.inr hl⟩
        · obtain ⟨k, c, hc, hm⟩ := ih tok hr
          exact ⟨k, c, List.mem_cons_of_mem _ hc, hm⟩
    | datum bb dd =>
      have h2 : tok ∈ wire_tok.str k0 ::
          (serialize_term_tree (tree_term.datum bb dd) ++
            serialize_optargs cs) := h
      rcases List.mem_cons.mp h2 with hk | hrest
      · exact ⟨k0, .datum bb dd, List.mem_cons_self _ _, Or.inl hk⟩
      · rcases List.mem_append.mp hrest with hl | hr
        · exact ⟨k0, .datum bb dd, List.mem_cons_self _ _, Or.inr hl⟩
        · obtain ⟨k, c, hc, hm⟩ := ih tok hr
          exact ⟨k, c, List.mem_cons_of_mem _ hc, hm⟩
    | node ty bb aa oo =>
      have h2 : tok ∈ wire_tok.str k0 ::
          (serialize_term_tree (tree_term.node ty bb aa oo) ++
            serialize_optargs cs) := h
      rcases List.mem_cons.mp h2 with hk | hrest
      · exact ⟨k0, .node ty bb aa oo, List.mem_cons_self _ _, Or.inl hk⟩
      · rcases List.mem_append.mp hrest with hl | hr
        · exact ⟨k0, .node ty bb aa oo, List.mem_cons_self _ _, Or.inr hl⟩
        · obtain ⟨k, c, hc, hm⟩ := ih tok hr
          exact ⟨k, c, List.mem_cons_of_mem _ hc, hm⟩

/-- No serialization of an amended-well-formed tree contains the `REFERENCE`
type tag, by strong induction on the tree size. -/
theorem serialize_ref_free_aux : ∀ (N : Nat) (t : tree_term), tsizeT t ≤ N →
    serializable_ok t = true →
    ∀ n : Int, wire_tok.i32 n ∈ serialize_term_tree t → ¬(n = REFERENCE) := by
  intro N
  induction N with
  | zero =>
    intro t ht hok n hmem
    exact absurd ht (by have := tsizeT_pos t; omega)
  | succ N ih =>
    intro t ht hok n hmem
    cases t with
    | datum b d =>
      have h2 : wire_tok.i32 n ∈
          [wire_tok.i32 Term.DATUM, wire_tok.bt b, wire_tok.dat d] := hmem
      simp at h2
      subst h2
      decide
    | ref b s => exact Bool.noConfusion hok
    | node ty b args optargs =>
      have hok2 : ((ty != REFERENCE) && serializable_args args &&
          serializable_optargs optargs) = true := hok
      rw [Bool.and_eq_true, Bool.and_eq_true, bne_iff_ne] at hok2
      obtain ⟨⟨hty, hargs⟩, hopts⟩ := hok2
      have ht2 : 1 + tsizeA args + tsizeO optargs ≤ N + 1 := ht
      have hmem2 : wire_tok.i32 n ∈
          wire_tok.i32 ty :: wire_tok.bt b :: wire_tok.sz args.length ::
            (serialize_args args ++
              (wire_tok.sz optargs.length ::
                serialize_optargs optargs)) := hmem
      simp only [List.mem_cons, List.mem_append] at hmem2
      rcases hmem2 with h1 | h2 | h3 | h4 | h5 | h6
      · injection h1 with h1
        intro hc
        exact hty (h1.symm.trans hc)
      · exact absurd h2 (by simp)
      · exact absurd h3 (by simp)
      · obtain ⟨c, hc, hm⟩ := mem_serialize_args args _ h4
        exact ih (iter_deref c)
          (by have := tsizeA_mem args c hc; have := tsize_deref_le c; omega)
          (serializable_args_mem args hargs c hc) n hm
      · exact absurd h5 (by simp)
      · obtain ⟨k, c, hkc, hm⟩ := mem_serialize_optargs optargs _ h6
        rcases hm with hstr | hm2
        · exact absurd hstr (by simp)
        · exact ih (iter_deref c)
            (by have := tsizeO_mem optargs k c hkc
                have := tsize_deref_le c
                omega)
            (serializable_optargs_mem optargs hopts k c hkc) n hm2

/-- C10 (amended): for a tree whose root is not a `REFERENCE` (and whose
reference entries, if any, sit one hop above well-formed targets), the
serialized stream never contains the `REFERENCE` type tag: reference children
are replaced by their targets by `arg_iterator_t::next` before their tags are
emitted. The original claim's "including at the root" is refuted by
`claim_C10_counterexample`: `serialize_term_tree` emits the root's own type
tag before any dereferencing, so a `REFERENCE` root puts `-1` on the wire. -/
theorem claim_C10 (t : tree_term) (hok : serializable_ok t = true) :
    ∀ n : Int, wire_tok.i32 n ∈ serialize_term_tree t → ¬(n = REFERENCE) :=
  serialize_ref_free_aux (tsizeT t) t (Nat.le_refl _) hok

theorem claim_C10_witness :
    ¬((Term.MAKE_ARRAY : Int) = REFERENCE) :=
  claim_C10
    (tree_term.node Term.MAKE_ARRAY 0
      [tree_term.ref 0 (tree_term.datum 0 Datum.null)] [])
    (by decide) Term.MAKE_ARRAY (List.mem_cons_self _ _)

/-- The original claim C10 is false at the root: serializing a `REFERENCE`
term emits the reference's own type tag `-1` (the source serializes
`term->type` before any `REFERENCE` handling), and the stream differs from
the serialization of the target — the datum payload is even lost, because
the `DATUM` branch is chosen by the reference's type, not the target's. -/
theorem claim_C10_counterexample :
    serialize_term_tree (tree_term.ref 0 (tree_term.datum 0 Datum.null)) =
      [wire_tok.i32 REFERENCE, wire_tok.bt 0, wire_tok.sz 0,
        wire_tok.sz 0] ∧
    wire_tok.i32 REFERENCE ∈
      serialize_term_tree (tree_term.ref 0 (tree_term.datum 0 Datum.null)) ∧
    ¬(serialize_term_tree (tree_term.ref 0 (tree_term.datum 0 Datum.null)) =
        serialize_term_tree (tree_term.datum 0 Datum.null)) := by
  refine ⟨rfl, ?_, ?_⟩
  · rw [show serialize_term_tree
        (tree_term.ref 0 (tree_term.datum 0 Datum.null)) =
      [wire_tok.i32 REFERENCE, wire_tok.bt 0, wire_tok.sz 0, wire_tok.sz 0]
      from rfl]
    exact List.mem_cons_self _ _
  · intro h
    have hlen := congrArg List.length h
    rw [show (serialize_term_tree
        (tree_term.ref 0 (tree_term.datum 0 Datum.null))).length = 4
        from rfl,
      show (serialize_term_tree (tree_term.datum 0 Datum.null)).length = 3
        from rfl] at hlen
    exact absurd hlen (by decide)

end ql
